import Mathlib

/-!
# Arithmetic-expression lexer and recursive-descent parser (`src/syntax.cpp`)

A shallow embedding of the `Lexer` and `Parser` classes of `src/syntax.cpp`, and of the
function `tokenize` of `src/lexical.cpp`.

* A `std::string` is a `List Char`; every `Char` stands for one byte of the string.
* `<cctype>` classification follows the "C" locale.
* `std::unique_ptr<ASTNode>` is the type `ASTNode`, whose constructor `null` is `nullptr`.
* `int` is 32 bits wide; `std::stoi` throws instead of wrapping, so no modular arithmetic
  is needed.
* The three mutually recursive grammar functions take a recursion budget (`Nat`); the budget
  `parseFuel` handed out by `parse` is shown to be always sufficient.
-/

namespace Compiler

/-! ## Tokens -/

/-- The enumeration `TokenType` (`src/syntax.cpp`, lines 6-16). -/
inductive TokenType where
  | INTEGER
  | PLUS
  | MINUS
  | MULTIPLY
  | DIVIDE
  | OPEN_PAREN
  | CLOSE_PAREN
  | END_OF_FILE
  | INVALID
  deriving DecidableEq

/-- The struct `Token` (lines 18-21). -/
structure Token where
  type : TokenType
  value : List Char
  deriving DecidableEq

/-! ## Character classes (`<cctype>`, "C" locale) -/

/-- The function `isspace`: space, `\t`, `\n`, `\v`, `\f`, `\r`. -/
def isspace (c : Char) : Bool :=
  c.toNat = 32 || (9 ≤ c.toNat && c.toNat ≤ 13)

/-- The function `isdigit`: `'0'` .. `'9'`. -/
def isdigit (c : Char) : Bool :=
  48 ≤ c.toNat && c.toNat ≤ 57

/-! ## Lexer -/

/-- The class `Lexer` (lines 23-72): the input and the cursor `currentPos`. -/
structure Lexer where
  input : List Char
  currentPos : Nat
  deriving DecidableEq

/-- The constructor `Lexer(const std::string&)` (line 25): the cursor starts at `0`. -/
def Lexer.create (input : List Char) : Lexer :=
  { input := input, currentPos := 0 }

/-- The `while` loop of `skipWhitespace` (lines 55-57), run on the cursor value.  The first
argument bounds the number of iterations; `skipWhitespace` passes the number of characters
left, which the loop cannot exceed. -/
def skipWhitespaceLoop (input : List Char) : Nat → Nat → Nat
  | 0, pos => pos
  | k + 1, pos =>
    match input[pos]? with
    | some c => if isspace c then skipWhitespaceLoop input k (pos + 1) else pos
    | none => pos

/-- The method `Lexer::skipWhitespace` (lines 54-58). -/
def Lexer.skipWhitespace (l : Lexer) : Lexer :=
  { l with currentPos := skipWhitespaceLoop l.input (l.input.length - l.currentPos) l.currentPos }

/-- The method `Lexer::createToken` (lines 60-63): the token text is the character under the
cursor, and the cursor moves one character on.  Every call site has the cursor in range. -/
def Lexer.createToken (l : Lexer) (type : TokenType) : Token × Lexer :=
  ({ type := type, value := [l.input.getD l.currentPos ' '] },
   { l with currentPos := l.currentPos + 1 })

/-- The `while` loop of `getNumber` (lines 67-69) on the pair (`result`, cursor). -/
def getNumberLoop (input : List Char) : Nat → Nat → List Char → List Char × Nat
  | 0, pos, result => (result, pos)
  | k + 1, pos, result =>
    match input[pos]? with
    | some c => if isdigit c then getNumberLoop input k (pos + 1) (result ++ [c]) else (result, pos)
    | none => (result, pos)

/-- The method `Lexer::getNumber` (lines 65-71). -/
def Lexer.getNumber (l : Lexer) : Token × Lexer :=
  let r := getNumberLoop l.input (l.input.length - l.currentPos) l.currentPos []
  ({ type := .INTEGER, value := r.1 }, { l with currentPos := r.2 })

/-- The method `Lexer::getNextToken` (lines 27-48).  Note that the `INVALID` branch (line 46)
returns without moving the cursor. -/
def Lexer.getNextToken (l : Lexer) : Token × Lexer :=
  let l1 := l.skipWhitespace
  match l1.input[l1.currentPos]? with
  | none => ({ type := .END_OF_FILE, value := [] }, l1)
  | some currentChar =>
    if currentChar = '+' then l1.createToken .PLUS
    else if currentChar = '-' then l1.createToken .MINUS
    else if currentChar = '*' then l1.createToken .MULTIPLY
    else if currentChar = '/' then l1.createToken .DIVIDE
    else if currentChar = '(' then l1.createToken .OPEN_PAREN
    else if currentChar = ')' then l1.createToken .CLOSE_PAREN
    else if isdigit currentChar then l1.getNumber
    else ({ type := .INVALID, value := [] }, l1)

/-! ## Syntax tree -/

/-- A value of type `std::unique_ptr<ASTNode>` (lines 74-128): `null` is `nullptr`, the other
two constructors are pointers to a `NumNode` and to a `BinOpNode`. -/
inductive ASTNode where
  | null
  | NumNode (value : Int)
  | BinOpNode (op : TokenType) (left right : ASTNode)
  deriving DecidableEq

/-! ## `std::stoi` -/

/-- Largest value of a 32-bit `int`. -/
def INT_MAX : Int := 2147483647

/-- Smallest value of a 32-bit `int`. -/
def INT_MIN : Int := -2147483648

/-- The two exceptions `std::stoi` can throw. -/
inductive StoiError where
  | invalid_argument
  | out_of_range
  deriving DecidableEq

/-- The number denoted by a run of decimal digits, most significant digit first. -/
def digitsValue (s : List Char) : Nat :=
  s.foldl (fun acc c => 10 * acc + (c.toNat - 48)) 0

/-- The library function `std::stoi(const std::string&)` in base 10: leading whitespace is
skipped, an optional sign is read, then the longest run of digits; no digit at all throws
`std::invalid_argument`, a value outside `int` throws `std::out_of_range`. -/
def stoi (s : List Char) : Except StoiError Int :=
  let s1 := s.dropWhile isspace
  let negative : Bool := s1.head? = some '-'
  let s2 := if s1.head? = some '-' ∨ s1.head? = some '+' then s1.tail else s1
  let ds := s2.takeWhile isdigit
  if ds = [] then .error .invalid_argument
  else
    let v : Int := if negative then -(digitsValue ds : Int) else (digitsValue ds : Int)
    if v < INT_MIN ∨ INT_MAX < v then .error .out_of_range else .ok v

/-! ## Parser -/

/-- The class `Parser` (lines 130-193): the lexer it reads from and the lookahead token. -/
structure Parser where
  lexer : Lexer
  currentToken : Token
  deriving DecidableEq

/-- The constructor `Parser(Lexer&)` (line 132): pulls the first token. -/
def Parser.create (lexer : Lexer) : Parser :=
  let r := lexer.getNextToken
  { lexer := r.2, currentToken := r.1 }

/-- The method `Parser::eat` (lines 142-146). -/
def Parser.eat (p : Parser) (expectedType : TokenType) : Parser :=
  if p.currentToken.type = expectedType then
    let r := p.lexer.getNextToken
    { lexer := r.2, currentToken := r.1 }
  else p

/-- How a call of a grammar function ends: it returns a pointer and leaves the parser in a
new state, or `std::stoi` throws, or the recursion budget of the model is used up. -/
inductive ParseResult where
  | returned (node : ASTNode) (p : Parser)
  | threw (e : StoiError)
  | out_of_fuel
  deriving DecidableEq

mutual

/-- The method `Parser::factor` (lines 148-164). -/
def factor : Nat → Parser → ParseResult
  | 0, _ => .out_of_fuel
  | n + 1, p =>
    let token := p.currentToken
    if token.type = .OPEN_PAREN then
      match expr n (p.eat .OPEN_PAREN) with
      | .returned result p1 => .returned result (p1.eat .CLOSE_PAREN)
      | r => r
    else if token.type = .INTEGER then
      let p1 := p.eat .INTEGER
      match stoi token.value with
      | .ok v => .returned (.NumNode v) p1
      | .error e => .threw e
    else .returned .null p

/-- The `while` loop of `Parser::term` (lines 170-175); the local `token` equals
`currentToken` at every test of the loop condition. -/
def termLoop : Nat → ASTNode → Parser → ParseResult
  | 0, _, _ => .out_of_fuel
  | n + 1, result, p =>
    let token := p.currentToken
    if token.type = .MULTIPLY ∨ token.type = .DIVIDE then
      match factor n (p.eat token.type) with
      | .returned right p1 => termLoop n (.BinOpNode token.type result right) p1
      | r => r
    else .returned result p

/-- The method `Parser::term` (lines 166-178). -/
def term : Nat → Parser → ParseResult
  | 0, _ => .out_of_fuel
  | n + 1, p =>
    match factor n p with
    | .returned result p1 => termLoop n result p1
    | r => r

/-- The `while` loop of `Parser::expr` (lines 184-189). -/
def exprLoop : Nat → ASTNode → Parser → ParseResult
  | 0, _, _ => .out_of_fuel
  | n + 1, result, p =>
    let token := p.currentToken
    if token.type = .PLUS ∨ token.type = .MINUS then
      match term n (p.eat token.type) with
      | .returned right p1 => exprLoop n (.BinOpNode token.type result right) p1
      | r => r
    else .returned result p

/-- The method `Parser::expr` (lines 180-192). -/
def expr : Nat → Parser → ParseResult
  | 0, _ => .out_of_fuel
  | n + 1, p =>
    match term n p with
    | .returned result p1 => exprLoop n result p1
    | r => r

end

/-- Recursion budget that `parse` hands to `expr`. -/
def parseFuel (input : List Char) : Nat :=
  6 * input.length + 6

/-- The method `Parser::parse` (lines 134-136), run the way `main` does (lines 200-202): on a
fresh `Lexer` over `input` and a fresh `Parser` over that lexer. -/
def parse (input : List Char) : ParseResult :=
  expr (parseFuel input) (Parser.create (Lexer.create input))

/-! ## The standalone tokenizer demo (`src/lexical.cpp`)

The demo has its own `TokenType` and `Token`; it shares nothing with the lexer above but the
`<cctype>` predicates. -/

namespace Lexical

/-- The enumeration `TokenType` of `src/lexical.cpp` (lines 8-16). -/
inductive TokenType where
  | UNKNOWN
  | END
  | IDENTIFIER
  | INTEGER
  | OPERATOR
  | KEYWORD
  | DELIMITER
  deriving DecidableEq

/-- The struct `Token` of `src/lexical.cpp` (lines 20-26). -/
structure Token where
  type : TokenType
  value : List Char
  deriving DecidableEq

/-- The function `isalpha` of `<cctype>` ("C" locale): `A`..`Z` and `a`..`z`. -/
def isalpha (c : Char) : Bool :=
  (65 ≤ c.toNat && c.toNat ≤ 90) || (97 ≤ c.toNat && c.toNat ≤ 122)

/-- The function `isDelimiter` (lines 30-33): membership in `[]{}(),.;:`. -/
def isDelimiter (c : Char) : Bool :=
  decide (c ∈ ['[', ']', '\x7b', '\x7d', '(', ')', ',', '.', ';', ':'])

/-- The function `isOperator` (lines 37-40): membership in `+-*/%`. -/
def isOperator (c : Char) : Bool :=
  decide (c ∈ ['+', '-', '*', '/', '%'])

/-- The list `keywords` of `isKeyword` (line 45). -/
def keywords : List (List Char) :=
  [['i', 'f'], ['e', 'l', 's', 'e'], ['w', 'h', 'i', 'l', 'e'], ['r', 'e', 't', 'u', 'r', 'n']]

/-- The function `isKeyword` (lines 44-47). -/
def isKeyword (word : List Char) : Bool :=
  decide (word ∈ keywords)

/-- The local variables of `tokenize` (lines 52-54). -/
structure TokenizeState where
  tokens : List Token
  buffer : List Char
  type : TokenType
  deriving DecidableEq

/-- One pass through the body of the `for` loop of `tokenize` (lines 57-85) for the
character `c`. -/
def tokenizeStep (st : TokenizeState) (c : Char) : TokenizeState :=
  if isspace c then
    if st.buffer ≠ [] then
      { st with tokens := st.tokens ++ [{ type := st.type, value := st.buffer }], buffer := [] }
    else st
  else
    let type : TokenType :=
      if isdigit c then .INTEGER
      else if isalpha c then .IDENTIFIER
      else if isDelimiter c then .DELIMITER
      else if isOperator c then .OPERATOR
      else st.type
    let buffer := st.buffer ++ [c]
    if type = .KEYWORD ∧ isKeyword buffer = true then
      { tokens := st.tokens ++ [{ type := .KEYWORD, value := buffer }], buffer := [],
        type := type }
    else { tokens := st.tokens, buffer := buffer, type := type }

/-- The state of `tokenize` after the `for` loop (line 85). -/
def tokenizeLoop (input : List Char) : TokenizeState :=
  input.foldl tokenizeStep { tokens := [], buffer := [], type := .UNKNOWN }

/-- The function `tokenize` (lines 51-94). -/
def tokenize (input : List Char) : List Token :=
  let st := tokenizeLoop input
  if st.buffer ≠ [] then st.tokens ++ [{ type := st.type, value := st.buffer }]
  else st.tokens

end Lexical

/-! ## Specification-side definitions and proof devices

Reference expressions, the grammar of well-formed texts, renderings, and the notions the
proofs below are phrased in.  None of them changes the embedding above. -/

/-- The characters at and after the cursor. -/
def Lexer.rest (l : Lexer) : List Char :=
  l.input.drop l.currentPos

/-- Token kind of a single-character token. -/
def charKind (c : Char) : Option TokenType :=
  if c = '+' then some .PLUS
  else if c = '-' then some .MINUS
  else if c = '*' then some .MULTIPLY
  else if c = '/' then some .DIVIDE
  else if c = '(' then some .OPEN_PAREN
  else if c = ')' then some .CLOSE_PAREN
  else none

/-- What `getNextToken` does, read off the characters that are left: the token, and how many
characters the cursor moves. -/
def scan (s : List Char) : Token × Nat :=
  let w := (s.takeWhile isspace).length
  match s.dropWhile isspace with
  | [] => ({ type := .END_OF_FILE, value := [] }, w)
  | c :: t =>
    match charKind c with
    | some k => ({ type := k, value := [c] }, w + 1)
    | none =>
      if isdigit c then
        ({ type := .INTEGER, value := (c :: t).takeWhile isdigit },
          w + ((c :: t).takeWhile isdigit).length)
      else ({ type := .INVALID, value := [] }, w)

/-- A fuel-indexed computation ends with `r`, and `r` is not the budget running out. -/
def Runs (f : Nat → ParseResult) (r : ParseResult) : Prop :=
  ∃ n, f n = r ∧ r ≠ .out_of_fuel

/-- The four binary operators. -/
inductive Op where
  | plus
  | minus
  | times
  | divide
  deriving DecidableEq

/-- The token kind of an operator. -/
def Op.kind : Op → TokenType
  | .plus => .PLUS
  | .minus => .MINUS
  | .times => .MULTIPLY
  | .divide => .DIVIDE

/-- The character that denotes an operator. -/
def Op.char : Op → Char
  | .plus => '+'
  | .minus => '-'
  | .times => '*'
  | .divide => '/'

/-- Whether an operator is multiplicative (`*`, `/`) rather than additive (`+`, `-`). -/
def Op.isMul : Op → Bool
  | .plus => false
  | .minus => false
  | .times => true
  | .divide => true

/-- A reference expression tree: literals and binary operations. -/
inductive Expr where
  | num (n : Nat)
  | bin (op : Op) (l r : Expr)
  deriving DecidableEq

/-- The syntax tree that stands for a reference expression. -/
def toAST : Expr → ASTNode
  | .num n => .NumNode (n : Int)
  | .bin op l r => .BinOpNode op.kind (toAST l) (toAST r)

/-- Value of a reference expression under integer arithmetic (C++ division truncates);
`none` when a division by zero occurs. -/
def Expr.eval : Expr → Option Int
  | .num n => some (n : Int)
  | .bin op l r =>
    match l.eval, r.eval with
    | some a, some b =>
      match op with
      | .plus => some (a + b)
      | .minus => some (a - b)
      | .times => some (a * b)
      | .divide => if b = 0 then none else some (Int.tdiv a b)
    | _, _ => none

/-- Reference evaluator of syntax trees: a `BinOpNode` applies its operator to the values of
its two children; `none` for a missing child, a non-operator tag or a division by zero. -/
def evalAST : ASTNode → Option Int
  | .null => none
  | .NumNode v => some v
  | .BinOpNode op l r =>
    match evalAST l, evalAST r with
    | some a, some b =>
      match op with
      | .PLUS => some (a + b)
      | .MINUS => some (a - b)
      | .MULTIPLY => some (a * b)
      | .DIVIDE => if b = 0 then none else some (Int.tdiv a b)
      | _ => none
    | _, _ => none

/-- The three precedence levels of the grammar. -/
inductive Level where
  | factor
  | term
  | expr
  deriving DecidableEq

/-- A run of whitespace characters (possibly empty). -/
def Blank (ws : List Char) : Prop :=
  ∀ c ∈ ws, isspace c = true

/-- The grammar of well-formed expressions, with the tree each text denotes under standard
arithmetic reading: `Derives lvl e s` says that the text `s` is generated at level `lvl` and
denotes `e`.

* factor: a digit run that fits in `int`, or `(` expr `)`;
* term: a factor, or term (`*` | `/`) factor  (grouping to the left);
* expr: a term, or expr (`+` | `-`) term  (grouping to the left);

with optional whitespace between tokens. -/
inductive Derives : Level → Expr → List Char → Prop where
  | literal (ds : List Char) (hne : ds ≠ []) (hds : ∀ c ∈ ds, isdigit c = true)
      (hfit : (digitsValue ds : Int) ≤ INT_MAX) :
      Derives .factor (.num (digitsValue ds)) ds
  | paren {e : Expr} {s : List Char} (ws1 ws2 : List Char) (h1 : Blank ws1) (h2 : Blank ws2)
      (h : Derives .expr e s) :
      Derives .factor e ('(' :: (ws1 ++ (s ++ (ws2 ++ [')']))))
  | factor {e : Expr} {s : List Char} (h : Derives .factor e s) : Derives .term e s
  | mul {e1 e2 : Expr} {s1 s2 : List Char} (op : Op) (hop : op.isMul = true)
      (ws1 ws2 : List Char) (h1 : Blank ws1) (h2 : Blank ws2)
      (hl : Derives .term e1 s1) (hr : Derives .factor e2 s2) :
      Derives .term (.bin op e1 e2) (s1 ++ (ws1 ++ (op.char :: (ws2 ++ s2))))
  | term {e : Expr} {s : List Char} (h : Derives .term e s) : Derives .expr e s
  | add {e1 e2 : Expr} {s1 s2 : List Char} (op : Op) (hop : op.isMul = false)
      (ws1 ws2 : List Char) (h1 : Blank ws1) (h2 : Blank ws2)
      (hl : Derives .expr e1 s1) (hr : Derives .term e2 s2) :
      Derives .expr (.bin op e1 e2) (s1 ++ (ws1 ++ (op.char :: (ws2 ++ s2))))

/-- The parser state right after the lookahead has been pulled with the cursor at `pos`. -/
def stateAt (input : List Char) (pos : Nat) : Parser :=
  Parser.create { input := input, currentPos := pos }

/-- What the induction over the grammar establishes at each level. -/
def ParsesAt : Level → Expr → List Char → Prop
  | .factor, e, s => ∀ input pos rest, input.drop pos = s ++ rest →
      rest.takeWhile isdigit = [] →
      Runs (fun n => factor n (stateAt input pos))
        (.returned (toAST e) (stateAt input (pos + s.length)))
  | .term, e, s => ∀ input pos rest, input.drop pos = s ++ rest →
      rest.takeWhile isdigit = [] → ∀ r,
      Runs (fun n => termLoop n (toAST e) (stateAt input (pos + s.length))) r →
      Runs (fun n => term n (stateAt input pos)) r
  | .expr, e, s => ∀ input pos rest, input.drop pos = s ++ rest →
      rest.takeWhile isdigit = [] →
      ¬((stateAt input (pos + s.length)).currentToken.type = .MULTIPLY ∨
        (stateAt input (pos + s.length)).currentToken.type = .DIVIDE) → ∀ r,
      Runs (fun n => exprLoop n (toAST e) (stateAt input (pos + s.length))) r →
      Runs (fun n => expr n (stateAt input pos)) r

/-- Kinds of token for which `getNextToken` has moved the cursor over at least one character. -/
def TokenType.consuming (k : TokenType) : Bool :=
  k ≠ .END_OF_FILE && k ≠ .INVALID

/-- Termination measure of a parser state: twice the number of characters left, plus one when
the lookahead is a token that `eat` can still consume. -/
def Parser.measure (p : Parser) : Nat :=
  2 * (p.lexer.input.length - p.lexer.currentPos) +
    (if p.currentToken.type.consuming then 1 else 0)

/-- The decimal literal of a natural number (no sign, no leading zeros), as C++ source or a
user would write it. -/
def decimal (n : Nat) : List Char :=
  Nat.toDigits 10 n

/-- The state the parser is in when the whole input has been read. -/
def finalState (input : List Char) : Parser :=
  { lexer := { input := input, currentPos := input.length },
    currentToken := { type := .END_OF_FILE, value := [] } }

/-- Precedence of an operator: `1` for `*` and `/`, `0` for `+` and `-`. -/
def Op.level (op : Op) : Nat :=
  if op.isMul then 1 else 0

/-- Precedence of the outermost construct of an expression; a literal binds tightest. -/
def Expr.level : Expr → Nat
  | .num _ => 2
  | .bin op _ _ => op.level

/-- Put a text in parentheses, or leave it. -/
def wrap (b : Bool) (s : List Char) : List Char :=
  if b then '(' :: (s ++ [')']) else s

/-- Text of an expression with exactly the parentheses that precedence and left-to-right
grouping require: around a left operand that binds weaker than the operator, and around a right
operand that does not bind tighter than the operator. -/
def render : Expr → List Char
  | .num n => decimal n
  | .bin op l r =>
    wrap (decide (l.level < op.level)) (render l) ++
      (op.char :: wrap (decide (r.level < op.level + 1)) (render r))

/-- Text of an expression with parentheses around every binary operation. -/
def renderFull : Expr → List Char
  | .num n => decimal n
  | .bin op l r => '(' :: (renderFull l ++ (op.char :: (renderFull r ++ [')'])))

/-- Every literal of the expression fits in `int`. -/
def Expr.Fits : Expr → Prop
  | .num n => (n : Int) ≤ INT_MAX
  | .bin _ l r => l.Fits ∧ r.Fits

/-- The grammar level that admits constructs of a given precedence. -/
def atLevel : Nat → Level
  | 0 => .expr
  | 1 => .term
  | _ => .factor

/-- Value of the tree a call returned, under the reference evaluator; `none` when the call
did not return or the tree has no value. -/
def ParseResult.value : ParseResult → Option Int
  | .returned t _ => evalAST t
  | _ => none

/-- The lexer after `n` calls of `getNextToken`. -/
def lexerAfter : Nat → Lexer → Lexer
  | 0, l => l
  | n + 1, l => lexerAfter n l.getNextToken.2

/-- The token returned by call number `n` (counting from 0) of `getNextToken`. -/
def nthToken (l : Lexer) (n : Nat) : Token :=
  (lexerAfter n l).getNextToken.1

/-- What a caller of `parse` can observe of a result without looking at positions: the tree
or the exception. -/
inductive Outcome where
  | node (t : ASTNode)
  | exception (e : StoiError)
  | no_result
  deriving DecidableEq

/-- The outcome of a call. -/
def ParseResult.outcome : ParseResult → Outcome
  | .returned t _ => .node t
  | .threw e => .exception e
  | .out_of_fuel => .no_result

/-- The lookahead token a call leaves behind, when it returns. -/
def ParseResult.lookahead : ParseResult → Option Token
  | .returned _ p => some p.currentToken
  | _ => none

/-- Whether a text starts with a digit. -/
def headDigit : List Char → Bool
  | [] => false
  | d :: _ => isdigit d

/-- `Ins prev a b`: the text `b` is the text `a` with one whitespace character inserted at a
place that is not between two digits; `prev` tells whether the character before the texts is
a digit. -/
inductive Ins : Bool → List Char → List Char → Prop where
  | here (prev : Bool) (w : Char) (post : List Char) (hw : isspace w = true)
      (hpos : ¬(prev = true ∧ headDigit post = true)) : Ins prev post (w :: post)
  | skip (prev : Bool) (c : Char) {a b : List Char} (h : Ins (isdigit c) a b) :
      Ins prev (c :: a) (c :: b)

/-- Two texts that are equal or differ by one inserted whitespace character. -/
def Related (a b : List Char) : Prop :=
  a = b ∨ Ins false a b

/-- Whether the last character of a text is a digit; `prev` answers for the empty text. -/
def lastDigit (prev : Bool) : List Char → Bool
  | [] => prev
  | c :: t => lastDigit (isdigit c) t

/-- Two lexers whose remaining texts are related. -/
def LexSim (l l1 : Lexer) : Prop :=
  Related l.rest l1.rest

/-- Two parsers with the same lookahead and related remaining texts. -/
def PSim (p p1 : Parser) : Prop :=
  p.currentToken = p1.currentToken ∧ LexSim p.lexer p1.lexer

/-- Two results that agree up to positions. -/
def RSim : ParseResult → ParseResult → Prop
  | .returned t p, .returned t1 p1 => t = t1 ∧ PSim p p1
  | .threw e, .threw e1 => e = e1
  | .out_of_fuel, .out_of_fuel => True
  | _, _ => False

/-- Continue a call that returned with `f`; an exception or an exhausted budget is passed on. -/
def ParseResult.andThen (r : ParseResult) (f : ASTNode → Parser → ParseResult) : ParseResult :=
  match r with
  | .returned t p => f t p
  | .threw e => .threw e
  | .out_of_fuel => .out_of_fuel

/-- The parser state after a sequence of calls of `eat`. -/
def eats (p : Parser) (ks : List TokenType) : Parser :=
  ks.foldl Parser.eat p

/-- Kinds of token that make a grammar function do something other than return. -/
def TokenType.active (k : TokenType) : Bool :=
  k = .OPEN_PAREN || k = .INTEGER || k = .PLUS || k = .MINUS || k = .MULTIPLY || k = .DIVIDE

/-- Two results that agree on the tree or the exception, with final states related by `R`. -/
def RSimBy (R : Parser → Parser → Prop) : ParseResult → ParseResult → Prop
  | .returned t p, .returned t1 p1 => t = t1 ∧ R p p1
  | .threw e, .threw e1 => e = e1
  | .out_of_fuel, .out_of_fuel => True
  | _, _ => False

/-- How the parser state on an input `s` and the parser state on `(` `s` `)` are related while
both parses run: the same lookahead with the closing parenthesis still ahead of the second
lexer; or the first at `END_OF_FILE` and the second at the closing parenthesis; or both at
`END_OF_FILE`. -/
def ParenRel (p q : Parser) : Prop :=
  (p.currentToken = q.currentToken ∧ p.currentToken.type ≠ .END_OF_FILE ∧
    q.lexer.rest = p.lexer.rest ++ [')']) ∨
  (p.currentToken.type = .END_OF_FILE ∧ q.currentToken.type = .CLOSE_PAREN ∧
    q.lexer.rest = []) ∨
  (p.currentToken.type = .END_OF_FILE ∧ q.currentToken.type = .END_OF_FILE)

namespace Lexical

/-- The running type is none of `KEYWORD`, `END`, and no token pushed so far is a `KEYWORD`. -/
def NoKeyword (st : TokenizeState) : Prop :=
  st.type ≠ .KEYWORD ∧ st.type ≠ .END ∧ ∀ tok ∈ st.tokens, tok.type ≠ .KEYWORD

end Lexical

/-! ## Theorems -/

/-! ### The lexer in terms of the characters left -/

theorem drop_eq_cons_of_getElem? {input : List Char} {pos : Nat} {c : Char}
    (h : input[pos]? = some c) : input.drop pos = c :: input.drop (pos + 1) := by
  obtain ⟨hlt, hc⟩ := List.getElem?_eq_some_iff.mp h
  rw [List.drop_eq_getElem_cons hlt, hc]

theorem drop_eq_nil_of_getElem? {input : List Char} {pos : Nat}
    (h : input[pos]? = none) : input.drop pos = [] := by
  rw [List.getElem?_eq_none_iff] at h
  exact List.drop_eq_nil_of_le h

theorem skipWhitespaceLoop_eq (input : List Char) :
    ∀ k pos, input.length - pos ≤ k →
      skipWhitespaceLoop input k pos = pos + ((input.drop pos).takeWhile isspace).length := by
  intro k
  induction k with
  | zero =>
    intro pos h
    have : input.drop pos = [] := List.drop_eq_nil_of_le (by omega)
    simp [skipWhitespaceLoop, this]
  | succ k ih =>
    intro pos h
    unfold skipWhitespaceLoop
    cases hc : input[pos]? with
    | none => simp [drop_eq_nil_of_getElem? hc]
    | some c =>
      rw [drop_eq_cons_of_getElem? hc]
      by_cases hs : isspace c
      · simp only [hs, if_true, List.takeWhile_cons, List.length_cons]
        rw [ih (pos + 1) (by omega)]
        omega
      · simp [hs]

theorem getNumberLoop_eq (input : List Char) :
    ∀ k pos result, input.length - pos ≤ k →
      getNumberLoop input k pos result =
        (result ++ (input.drop pos).takeWhile isdigit,
         pos + ((input.drop pos).takeWhile isdigit).length) := by
  intro k
  induction k with
  | zero =>
    intro pos result h
    have : input.drop pos = [] := List.drop_eq_nil_of_le (by omega)
    simp [getNumberLoop, this]
  | succ k ih =>
    intro pos result h
    unfold getNumberLoop
    cases hc : input[pos]? with
    | none => simp [drop_eq_nil_of_getElem? hc]
    | some c =>
      rw [drop_eq_cons_of_getElem? hc]
      by_cases hs : isdigit c
      · simp only [hs, if_true, List.takeWhile_cons, List.length_cons]
        rw [ih (pos + 1) (result ++ [c]) (by omega)]
        simp
        omega
      · simp [hs]

theorem skipWhitespace_eq (l : Lexer) :
    l.skipWhitespace =
      { l with currentPos := l.currentPos + (l.rest.takeWhile isspace).length } := by
  unfold Lexer.skipWhitespace Lexer.rest
  rw [skipWhitespaceLoop_eq _ _ _ (le_refl _)]

theorem rest_skip (l : Lexer) :
    l.input.drop (l.currentPos + (l.rest.takeWhile isspace).length) = l.rest.dropWhile isspace := by
  unfold Lexer.rest
  rw [← List.drop_drop]
  generalize l.input.drop l.currentPos = s
  induction s with
  | nil => simp
  | cons c t ih =>
    by_cases hs : isspace c
    · simp [hs, ih]
    · simp [hs]

/-- The method `getNextToken` computes `scan` of the characters left. -/
theorem getNextToken_eq_scan (l : Lexer) :
    l.getNextToken =
      ((scan l.rest).1, { l with currentPos := l.currentPos + (scan l.rest).2 }) := by
  unfold Lexer.getNextToken
  simp only [skipWhitespace_eq]
  have hrest := rest_skip l
  unfold scan
  cases hd : l.rest.dropWhile isspace with
  | nil =>
    rw [hd] at hrest
    have : l.input[l.currentPos + (l.rest.takeWhile isspace).length]? = none := by
      rw [List.getElem?_eq_none_iff]
      exact List.drop_eq_nil_iff.mp hrest
    simp [this]
  | cons c t =>
    rw [hd] at hrest
    have hget : l.input[l.currentPos + (l.rest.takeWhile isspace).length]? = some c := by
      have := congrArg List.head? hrest
      simpa [List.head?_drop] using this
    simp only [hget]
    unfold charKind
    by_cases h1 : c = '+'
    · subst h1; simp [Lexer.createToken, hget, Nat.add_assoc]
    by_cases h2 : c = '-'
    · subst h2; simp [Lexer.createToken, hget, Nat.add_assoc]
    by_cases h3 : c = '*'
    · subst h3; simp [Lexer.createToken, hget, Nat.add_assoc]
    by_cases h4 : c = '/'
    · subst h4; simp [Lexer.createToken, hget, Nat.add_assoc]
    by_cases h5 : c = '('
    · subst h5; simp [Lexer.createToken, hget, Nat.add_assoc]
    by_cases h6 : c = ')'
    · subst h6; simp [Lexer.createToken, hget, Nat.add_assoc]
    simp only [h1, h2, h3, h4, h5, h6, if_false]
    by_cases hdig : isdigit c
    · simp only [hdig, if_true]
      unfold Lexer.getNumber
      simp only []
      rw [getNumberLoop_eq _ _ _ _ (le_refl _), hrest]
      simp [Nat.add_assoc]
    · simp [hdig]

/-! ### A larger recursion budget does not change a result -/

theorem fuel_succ : ∀ n,
    (∀ p, factor n p ≠ .out_of_fuel → factor (n + 1) p = factor n p) ∧
    (∀ t p, termLoop n t p ≠ .out_of_fuel → termLoop (n + 1) t p = termLoop n t p) ∧
    (∀ p, term n p ≠ .out_of_fuel → term (n + 1) p = term n p) ∧
    (∀ t p, exprLoop n t p ≠ .out_of_fuel → exprLoop (n + 1) t p = exprLoop n t p) ∧
    (∀ p, expr n p ≠ .out_of_fuel → expr (n + 1) p = expr n p) := by
  intro n
  induction n with
  | zero => simp [factor, termLoop, term, exprLoop, expr]
  | succ n ih =>
    obtain ⟨ihF, ihTL, ihT, ihEL, ihE⟩ := ih
    refine ⟨?_, ?_, ?_, ?_, ?_⟩
    · intro p h
      rw [factor] at h ⊢
      rw [factor]
      by_cases h1 : p.currentToken.type = .OPEN_PAREN
      · simp only [h1, if_true] at h ⊢
        cases he : expr n (p.eat .OPEN_PAREN) with
        | returned t p1 => rw [ihE _ (by rw [he]; simp), he]
        | threw e => rw [ihE _ (by rw [he]; simp), he]
        | out_of_fuel => rw [he] at h; simp at h
      · simp only [h1, if_false]
    · intro t p h
      rw [termLoop] at h ⊢
      rw [termLoop]
      by_cases h1 : p.currentToken.type = .MULTIPLY ∨ p.currentToken.type = .DIVIDE
      · simp only [h1, if_true] at h ⊢
        cases he : factor n (p.eat p.currentToken.type) with
        | returned t1 p1 =>
          rw [he] at h
          simp only at h
          rw [ihF _ (by rw [he]; simp), he]
          simp only
          exact ihTL _ _ h
        | threw e => rw [ihF _ (by rw [he]; simp), he]
        | out_of_fuel => rw [he] at h; simp at h
      · simp only [h1, if_false]
    · intro p h
      rw [term] at h ⊢
      rw [term]
      cases he : factor n p with
      | returned t1 p1 =>
        rw [he] at h
        simp only at h
        rw [ihF _ (by rw [he]; simp), he]
        simp only
        exact ihTL _ _ h
      | threw e => rw [ihF _ (by rw [he]; simp), he]
      | out_of_fuel => rw [he] at h; simp at h
    · intro t p h
      rw [exprLoop] at h ⊢
      rw [exprLoop]
      by_cases h1 : p.currentToken.type = .PLUS ∨ p.currentToken.type = .MINUS
      · simp only [h1, if_true] at h ⊢
        cases he : term n (p.eat p.currentToken.type) with
        | returned t1 p1 =>
          rw [he] at h
          simp only at h
          rw [ihT _ (by rw [he]; simp), he]
          simp only
          exact ihEL _ _ h
        | threw e => rw [ihT _ (by rw [he]; simp), he]
        | out_of_fuel => rw [he] at h; simp at h
      · simp only [h1, if_false]
    · intro p h
      rw [expr] at h ⊢
      rw [expr]
      cases he : term n p with
      | returned t1 p1 =>
        rw [he] at h
        simp only at h
        rw [ihT _ (by rw [he]; simp), he]
        simp only
        exact ihEL _ _ h
      | threw e => rw [ihT _ (by rw [he]; simp), he]
      | out_of_fuel => rw [he] at h; simp at h

theorem fuel_le_of_succ {f : Nat → ParseResult}
    (hf : ∀ n, f n ≠ .out_of_fuel → f (n + 1) = f n) {n m : Nat} (hnm : n ≤ m)
    (h : f n ≠ .out_of_fuel) : f m = f n := by
  induction m with
  | zero =>
    have : n = 0 := by omega
    rw [this]
  | succ m ih =>
    by_cases hn : n = m + 1
    · rw [hn]
    · have h1 : f m = f n := ih (by omega)
      rw [hf m (by rw [h1]; exact h), h1]

theorem factor_fuel_le {n m : Nat} (hnm : n ≤ m) (p : Parser) (h : factor n p ≠ .out_of_fuel) :
    factor m p = factor n p :=
  fuel_le_of_succ (f := fun k => factor k p) (fun k => (fuel_succ k).1 p) hnm h

theorem termLoop_fuel_le {n m : Nat} (hnm : n ≤ m) (t : ASTNode) (p : Parser)
    (h : termLoop n t p ≠ .out_of_fuel) : termLoop m t p = termLoop n t p :=
  fuel_le_of_succ (f := fun k => termLoop k t p) (fun k => (fuel_succ k).2.1 t p) hnm h

theorem term_fuel_le {n m : Nat} (hnm : n ≤ m) (p : Parser) (h : term n p ≠ .out_of_fuel) :
    term m p = term n p :=
  fuel_le_of_succ (f := fun k => term k p) (fun k => (fuel_succ k).2.2.1 p) hnm h

theorem exprLoop_fuel_le {n m : Nat} (hnm : n ≤ m) (t : ASTNode) (p : Parser)
    (h : exprLoop n t p ≠ .out_of_fuel) : exprLoop m t p = exprLoop n t p :=
  fuel_le_of_succ (f := fun k => exprLoop k t p) (fun k => (fuel_succ k).2.2.2.1 t p) hnm h

theorem expr_fuel_le {n m : Nat} (hnm : n ≤ m) (p : Parser) (h : expr n p ≠ .out_of_fuel) :
    expr m p = expr n p :=
  fuel_le_of_succ (f := fun k => expr k p) (fun k => (fuel_succ k).2.2.2.2 p) hnm h

theorem runs_factor_int {p : Parser} {v : Int} (h : p.currentToken.type = .INTEGER)
    (hv : stoi p.currentToken.value = .ok v) :
    Runs (fun n => factor n p) (.returned (.NumNode v) (p.eat .INTEGER)) :=
  ⟨1, by simp [factor, h, hv], by simp⟩

theorem runs_factor_paren {p p1 : Parser} {t : ASTNode} (h : p.currentToken.type = .OPEN_PAREN)
    (he : Runs (fun n => expr n (p.eat .OPEN_PAREN)) (.returned t p1)) :
    Runs (fun n => factor n p) (.returned t (p1.eat .CLOSE_PAREN)) := by
  obtain ⟨n, hn, -⟩ := he
  simp only at hn
  exact ⟨n + 1, by simp [factor, h, hn], by simp⟩

theorem runs_termLoop_stop {p : Parser} (t : ASTNode)
    (h : ¬(p.currentToken.type = .MULTIPLY ∨ p.currentToken.type = .DIVIDE)) :
    Runs (fun n => termLoop n t p) (.returned t p) :=
  ⟨1, by simp [termLoop, h], by simp⟩

theorem runs_termLoop_step {p p1 : Parser} {t t1 : ASTNode} {r : ParseResult}
    (h : p.currentToken.type = .MULTIPLY ∨ p.currentToken.type = .DIVIDE)
    (hf : Runs (fun n => factor n (p.eat p.currentToken.type)) (.returned t1 p1))
    (hl : Runs (fun n => termLoop n (.BinOpNode p.currentToken.type t t1) p1) r) :
    Runs (fun n => termLoop n t p) r := by
  obtain ⟨n1, h1, -⟩ := hf
  obtain ⟨n2, h2, hr⟩ := hl
  simp only at h1 h2
  refine ⟨max n1 n2 + 1, ?_, hr⟩
  have e1 := factor_fuel_le (le_max_left n1 n2) _ (by rw [h1]; simp)
  have e2 := termLoop_fuel_le (le_max_right n1 n2) _ _ (by rw [h2]; exact hr)
  simp only [termLoop, h, if_true, e1, h1, e2, h2]

theorem runs_term {p p1 : Parser} {t : ASTNode} {r : ParseResult}
    (hf : Runs (fun n => factor n p) (.returned t p1))
    (hl : Runs (fun n => termLoop n t p1) r) :
    Runs (fun n => term n p) r := by
  obtain ⟨n1, h1, -⟩ := hf
  obtain ⟨n2, h2, hr⟩ := hl
  simp only at h1 h2
  refine ⟨max n1 n2 + 1, ?_, hr⟩
  have e1 := factor_fuel_le (le_max_left n1 n2) _ (by rw [h1]; simp)
  have e2 := termLoop_fuel_le (le_max_right n1 n2) _ _ (by rw [h2]; exact hr)
  simp only [term, e1, h1, e2, h2]

theorem runs_exprLoop_stop {p : Parser} (t : ASTNode)
    (h : ¬(p.currentToken.type = .PLUS ∨ p.currentToken.type = .MINUS)) :
    Runs (fun n => exprLoop n t p) (.returned t p) :=
  ⟨1, by simp [exprLoop, h], by simp⟩

theorem runs_exprLoop_step {p p1 : Parser} {t t1 : ASTNode} {r : ParseResult}
    (h : p.currentToken.type = .PLUS ∨ p.currentToken.type = .MINUS)
    (hf : Runs (fun n => term n (p.eat p.currentToken.type)) (.returned t1 p1))
    (hl : Runs (fun n => exprLoop n (.BinOpNode p.currentToken.type t t1) p1) r) :
    Runs (fun n => exprLoop n t p) r := by
  obtain ⟨n1, h1, -⟩ := hf
  obtain ⟨n2, h2, hr⟩ := hl
  simp only at h1 h2
  refine ⟨max n1 n2 + 1, ?_, hr⟩
  have e1 := term_fuel_le (le_max_left n1 n2) _ (by rw [h1]; simp)
  have e2 := exprLoop_fuel_le (le_max_right n1 n2) _ _ (by rw [h2]; exact hr)
  simp only [exprLoop, h, if_true, e1, h1, e2, h2]

theorem runs_expr {p p1 : Parser} {t : ASTNode} {r : ParseResult}
    (hf : Runs (fun n => term n p) (.returned t p1))
    (hl : Runs (fun n => exprLoop n t p1) r) :
    Runs (fun n => expr n p) r := by
  obtain ⟨n1, h1, -⟩ := hf
  obtain ⟨n2, h2, hr⟩ := hl
  simp only at h1 h2
  refine ⟨max n1 n2 + 1, ?_, hr⟩
  have e1 := term_fuel_le (le_max_left n1 n2) _ (by rw [h1]; simp)
  have e2 := exprLoop_fuel_le (le_max_right n1 n2) _ _ (by rw [h2]; exact hr)
  simp only [expr, e1, h1, e2, h2]

/-! ### Tokens of particular texts -/

theorem charKind_not_space {c : Char} {k : TokenType} (h : charKind c = some k) :
    isspace c = false := by
  unfold charKind at h
  split_ifs at h with h1 h2 h3 h4 h5 h6 <;> subst_vars <;> decide

theorem isdigit_not_space {c : Char} (h : isdigit c = true) : isspace c = false := by
  simp only [isdigit, isspace, Bool.and_eq_true, decide_eq_true_eq, Bool.or_eq_false_iff,
    Bool.and_eq_false_iff, decide_eq_false_iff_not] at h ⊢
  omega

theorem isspace_not_digit {c : Char} (h : isspace c = true) : isdigit c = false := by
  cases hd : isdigit c with
  | false => rfl
  | true => rw [isdigit_not_space hd] at h; simp at h

theorem isdigit_charKind {c : Char} (h : isdigit c = true) : charKind c = none := by
  unfold charKind
  split_ifs with h1 h2 h3 h4 h5 h6 <;> first | rfl | (subst_vars; revert h; decide)

theorem scan_nil : scan [] = ({ type := .END_OF_FILE, value := [] }, 0) := by
  simp [scan]

theorem scan_space {c : Char} (hc : isspace c = true) (s : List Char) :
    scan (c :: s) = ((scan s).1, (scan s).2 + 1) := by
  unfold scan
  simp only [List.takeWhile_cons, List.dropWhile_cons, hc, if_true, List.length_cons]
  cases s.dropWhile isspace with
  | nil => rfl
  | cons d t =>
    simp only
    cases charKind d with
    | some k => simp [Nat.add_assoc]
    | none =>
      simp only
      by_cases hd : isdigit d
      · simp [hd, Nat.add_assoc, Nat.add_comm, Nat.add_left_comm]
      · simp [hd]

theorem scan_spaces {ws : List Char} (hws : ∀ c ∈ ws, isspace c = true) (s : List Char) :
    scan (ws ++ s) = ((scan s).1, ws.length + (scan s).2) := by
  induction ws with
  | nil => simp
  | cons c t ih =>
    rw [List.cons_append, scan_space (hws c (List.mem_cons_self _ _)),
      ih (fun d hd => hws d (List.mem_cons_of_mem _ hd))]
    simp only [List.length_cons]
    congr 1
    omega

theorem scan_single {c : Char} {k : TokenType} (hk : charKind c = some k) (s : List Char) :
    scan (c :: s) = ({ type := k, value := [c] }, 1) := by
  unfold scan
  simp [charKind_not_space hk, hk]

theorem scan_digits {ds : List Char} (hne : ds ≠ []) (hds : ∀ c ∈ ds, isdigit c = true)
    {rest : List Char} (hrest : rest.takeWhile isdigit = []) :
    scan (ds ++ rest) = ({ type := .INTEGER, value := ds }, ds.length) := by
  cases ds with
  | nil => exact absurd rfl hne
  | cons c t =>
    have hc : isdigit c = true := hds c (List.mem_cons_self _ _)
    have htake : (c :: (t ++ rest)).takeWhile isdigit = c :: t := by
      rw [← List.cons_append, List.takeWhile_append_of_pos hds, hrest, List.append_nil]
    have hk := isdigit_charKind hc
    have hsp := isdigit_not_space hc
    unfold scan
    rw [List.cons_append]
    simp only [List.takeWhile_cons, List.dropWhile_cons, hsp]
    simp only [Bool.false_eq_true, if_false, hk, hc, if_true, List.length_nil, Nat.zero_add]
    rw [List.takeWhile_cons, hc] at htake
    simp only [if_true] at htake
    rw [htake]

/-! ### Parser states at a cursor position -/

theorem drop_step {input : List Char} {pos : Nat} {a b : List Char}
    (h : input.drop pos = a ++ b) : input.drop (pos + a.length) = b := by
  rw [← List.drop_drop, h, List.drop_left]

theorem stateAt_eq (input : List Char) (pos : Nat) :
    stateAt input pos =
      { lexer := { input := input, currentPos := pos + (scan (input.drop pos)).2 },
        currentToken := (scan (input.drop pos)).1 } := by
  unfold stateAt Parser.create
  rw [getNextToken_eq_scan]
  rfl

theorem eat_eq_stateAt {p : Parser} {k : TokenType} (h : p.currentToken.type = k) :
    p.eat k = stateAt p.lexer.input p.lexer.currentPos := by
  unfold Parser.eat stateAt Parser.create
  simp [h]

theorem stateAt_blank {input : List Char} {pos : Nat} {ws rest : List Char}
    (h : input.drop pos = ws ++ rest) (hws : Blank ws) :
    stateAt input pos = stateAt input (pos + ws.length) := by
  rw [stateAt_eq, stateAt_eq, drop_step h, h, scan_spaces hws]
  simp [Nat.add_assoc]

theorem stateAt_single {input : List Char} {pos : Nat} {c : Char} {rest : List Char}
    {k : TokenType} (h : input.drop pos = c :: rest) (hk : charKind c = some k) :
    stateAt input pos =
      { lexer := { input := input, currentPos := pos + 1 },
        currentToken := { type := k, value := [c] } } := by
  rw [stateAt_eq, h, scan_single hk]

theorem stateAt_digits {input : List Char} {pos : Nat} {ds rest : List Char}
    (h : input.drop pos = ds ++ rest) (hne : ds ≠ []) (hds : ∀ c ∈ ds, isdigit c = true)
    (hrest : rest.takeWhile isdigit = []) :
    stateAt input pos =
      { lexer := { input := input, currentPos := pos + ds.length },
        currentToken := { type := .INTEGER, value := ds } } := by
  rw [stateAt_eq, h, scan_digits hne hds hrest]

theorem stoi_digits {ds : List Char} (hne : ds ≠ []) (hds : ∀ c ∈ ds, isdigit c = true) :
    stoi ds =
      if (digitsValue ds : Int) ≤ INT_MAX then .ok (digitsValue ds : Int)
      else .error .out_of_range := by
  cases ds with
  | nil => exact absurd rfl hne
  | cons c t =>
    have hc : isdigit c = true := hds c (List.mem_cons_self _ _)
    have hsp := isdigit_not_space hc
    have hk := isdigit_charKind hc
    have hminus : c ≠ '-' := by
      intro h; subst h; revert hc; decide
    have hplus : c ≠ '+' := by
      intro h; subst h; revert hc; decide
    have htake : (c :: t).takeWhile isdigit = c :: t :=
      List.takeWhile_eq_self_iff.mpr hds
    have hdrop : (c :: t).dropWhile isspace = c :: t := by
      simp [List.dropWhile_cons, hsp]
    have hnn : ¬ ((digitsValue (c :: t) : Int) < INT_MIN) := by
      have : (0 : Int) ≤ (digitsValue (c :: t) : Int) := Int.natCast_nonneg _
      unfold INT_MIN
      omega
    unfold stoi
    simp only [hdrop, List.head?_cons, Option.some.injEq, hminus, hplus, or_self, if_false,
      decide_False, htake]
    by_cases hle : (digitsValue (c :: t) : Int) ≤ INT_MAX
    · simp [hle, hnn, not_lt.mpr hle]
    · simp [hle, not_le.mp hle]

/-! ### The parser follows the grammar -/

theorem drop_step_cons {input : List Char} {pos : Nat} {c : Char} {b : List Char}
    (h : input.drop pos = c :: b) : input.drop (pos + 1) = b :=
  drop_step (a := [c]) h

theorem takeWhile_digit_blank {ws : List Char} (hws : Blank ws) (rest : List Char)
    (hrest : rest.takeWhile isdigit = []) : (ws ++ rest).takeWhile isdigit = [] := by
  cases ws with
  | nil => simpa using hrest
  | cons c t =>
    have := isspace_not_digit (hws c (List.mem_cons_self _ _))
    simp [List.takeWhile_cons, this]

theorem takeWhile_digit_cons {c : Char} (hc : isdigit c = false) (rest : List Char) :
    (c :: rest).takeWhile isdigit = [] := by
  simp [List.takeWhile_cons, hc]

theorem Op.charKind_char (op : Op) : charKind op.char = some op.kind := by
  cases op <;> decide

theorem Op.char_not_digit (op : Op) : isdigit op.char = false := by
  cases op <;> decide

/-- State reached at an operator that follows optional whitespace. -/
theorem stateAt_op {input : List Char} {pos : Nat} {ws rest : List Char} (op : Op)
    (h : input.drop pos = ws ++ (op.char :: rest)) (hws : Blank ws) :
    stateAt input pos =
      { lexer := { input := input, currentPos := pos + ws.length + 1 },
        currentToken := { type := op.kind, value := [op.char] } } := by
  rw [stateAt_blank h hws, stateAt_single (drop_step h) op.charKind_char]

theorem parsesAt_of_derives {lvl : Level} {e : Expr} {s : List Char} (h : Derives lvl e s) :
    ParsesAt lvl e s := by
  induction h with
  | literal ds hne hds hfit =>
    intro input pos rest hd hrest
    rw [stateAt_digits hd hne hds hrest]
    have hv : stoi ds = .ok (digitsValue ds : Int) := by
      rw [stoi_digits hne hds]; simp [hfit]
    have := runs_factor_int
      (p := { lexer := { input := input, currentPos := pos + ds.length },
              currentToken := { type := .INTEGER, value := ds } }) rfl hv
    rw [eat_eq_stateAt rfl] at this
    exact this
  | @paren e s ws1 ws2 h1 h2 _ ih =>
    intro input pos rest hd hrest
    simp only [List.cons_append, List.append_assoc, List.nil_append] at hd
    have d1 := drop_step_cons hd
    have d2 := drop_step d1
    have d3 := drop_step d2
    have d4 := drop_step d3
    have hclose : stateAt input (pos + 1 + ws1.length + s.length) =
        { lexer := { input := input, currentPos := pos + 1 + ws1.length + s.length + ws2.length + 1 },
          currentToken := { type := .CLOSE_PAREN, value := [')'] } } := by
      rw [stateAt_blank d3 h2, stateAt_single d4 (k := .CLOSE_PAREN) (by decide)]
    have hinner := ih input (pos + 1 + ws1.length) _ d2
      (takeWhile_digit_blank h2 _ (takeWhile_digit_cons (by decide) rest))
      (by rw [hclose]; simp) _
      (runs_exprLoop_stop (toAST e) (by rw [hclose]; simp))
    rw [hclose, ← stateAt_blank d1 h1] at hinner
    rw [stateAt_single hd (k := .OPEN_PAREN) (by decide)]
    have := runs_factor_paren
      (p := { lexer := { input := input, currentPos := pos + 1 },
              currentToken := { type := .OPEN_PAREN, value := ['('] } }) rfl
      (by rw [eat_eq_stateAt rfl]; exact hinner)
    rw [eat_eq_stateAt rfl] at this
    have hlen : pos + ('(' :: (ws1 ++ (s ++ (ws2 ++ [')'])))).length =
        pos + 1 + ws1.length + s.length + ws2.length + 1 := by
      simp only [List.length_cons, List.length_append, List.length_nil]; omega
    rw [hlen]
    exact this
  | factor _ ih =>
    intro input pos rest hd hrest r hr
    exact runs_term (ih input pos rest hd hrest) hr
  | @mul e1 e2 s1 s2 op hop ws1 ws2 h1 h2 _ _ ihl ihr =>
    intro input pos rest hd hrest r hrun
    simp only [List.cons_append, List.append_assoc] at hd
    have d1 := drop_step hd
    have d2 := drop_step d1
    have d3 := drop_step_cons d2
    have d4 := drop_step d3
    apply ihl input pos _ hd
      (takeWhile_digit_blank h1 _ (takeWhile_digit_cons op.char_not_digit _)) r
    rw [stateAt_op op d1 h1]
    have hkind : op.kind = .MULTIPLY ∨ op.kind = .DIVIDE := by
      cases op <;> simp [Op.isMul] at hop <;> simp [Op.kind]
    have hright := ihr input (pos + s1.length + ws1.length + 1 + ws2.length) rest d4 hrest
    rw [← stateAt_blank d3 h2] at hright
    have hlen : pos + (s1 ++ (ws1 ++ (op.char :: (ws2 ++ s2)))).length =
        pos + s1.length + ws1.length + 1 + ws2.length + s2.length := by
      simp only [List.length_cons, List.length_append]; omega
    rw [hlen] at hrun
    exact runs_termLoop_step
      (p := { lexer := { input := input, currentPos := pos + s1.length + ws1.length + 1 },
              currentToken := { type := op.kind, value := [op.char] } })
      hkind (by rw [eat_eq_stateAt rfl]; exact hright) hrun
  | @term e s _ ih =>
    intro input pos rest hd hrest hnm r hrun
    exact runs_expr (ih input pos rest hd hrest _ (runs_termLoop_stop (toAST e) hnm)) hrun
  | @add e1 e2 s1 s2 op hop ws1 ws2 h1 h2 _ _ ihl ihr =>
    intro input pos rest hd hrest hnm r hrun
    simp only [List.cons_append, List.append_assoc] at hd
    have d1 := drop_step hd
    have d2 := drop_step d1
    have d3 := drop_step_cons d2
    have d4 := drop_step d3
    have hkind : op.kind = .PLUS ∨ op.kind = .MINUS := by
      cases op <;> simp [Op.isMul] at hop <;> simp [Op.kind]
    have hnot : ¬(op.kind = .MULTIPLY ∨ op.kind = .DIVIDE) := by
      cases op <;> simp [Op.isMul] at hop <;> simp [Op.kind]
    apply ihl input pos _ hd
      (takeWhile_digit_blank h1 _ (takeWhile_digit_cons op.char_not_digit _))
      (by rw [stateAt_op op d1 h1]; exact hnot) r
    rw [stateAt_op op d1 h1]
    have hlen : pos + (s1 ++ (ws1 ++ (op.char :: (ws2 ++ s2)))).length =
        pos + s1.length + ws1.length + 1 + ws2.length + s2.length := by
      simp only [List.length_cons, List.length_append]; omega
    rw [hlen] at hrun hnm
    have hright := ihr input (pos + s1.length + ws1.length + 1 + ws2.length) rest d4 hrest _
      (runs_termLoop_stop (toAST e2) hnm)
    rw [← stateAt_blank d3 h2] at hright
    exact runs_exprLoop_step
      (p := { lexer := { input := input, currentPos := pos + s1.length + ws1.length + 1 },
              currentToken := { type := op.kind, value := [op.char] } })
      hkind (by rw [eat_eq_stateAt rfl]; exact hright) hrun

/-! ### Termination: the budget of `parse` suffices -/

theorem length_split_space (s : List Char) :
    s.length = (s.takeWhile isspace).length + (s.dropWhile isspace).length := by
  conv_lhs => rw [← List.takeWhile_append_dropWhile isspace s]
  rw [List.length_append]

theorem length_takeWhile_le' (p : Char → Bool) (s : List Char) :
    (s.takeWhile p).length ≤ s.length := by
  induction s with
  | nil => simp
  | cons c t ih =>
    rw [List.takeWhile_cons]
    split <;> simp; omega

theorem scan_le (s : List Char) : (scan s).2 ≤ s.length := by
  have hlen := length_split_space s
  unfold scan
  cases hd : s.dropWhile isspace with
  | nil => simp only; omega
  | cons c t =>
    rw [hd] at hlen
    simp only
    cases charKind c with
    | some k => simp only [List.length_cons] at hlen ⊢; omega
    | none =>
      simp only
      have := length_takeWhile_le' isdigit (c :: t)
      split <;> simp only [] <;> omega

theorem scan_pos (s : List Char) (h : (scan s).1.type.consuming = true) : 0 < (scan s).2 := by
  unfold scan at h ⊢
  cases hd : s.dropWhile isspace with
  | nil => rw [hd] at h; simp [TokenType.consuming] at h
  | cons c t =>
    rw [hd] at h
    simp only at h ⊢
    cases hk : charKind c with
    | some k => simp
    | none =>
      rw [hk] at h
      simp only at h ⊢
      by_cases hdig : isdigit c
      · simp [hdig, List.takeWhile_cons]
      · simp [hdig, TokenType.consuming] at h

theorem measure_stateAt_lt (input : List Char) (pos : Nat) :
    (stateAt input pos).measure < 2 * (input.length - pos) + 1 := by
  rw [stateAt_eq]
  unfold Parser.measure
  simp only
  have hle := scan_le (input.drop pos)
  rw [List.length_drop] at hle
  by_cases hc : (scan (input.drop pos)).1.type.consuming = true
  · have := scan_pos _ hc
    simp only [hc, if_true]
    omega
  · simp only [hc]
    simp only [Bool.false_eq_true, if_false]
    omega

theorem measure_eat_le (p : Parser) (k : TokenType) (hk : k.consuming = true) :
    (p.eat k).measure ≤ p.measure := by
  by_cases h : p.currentToken.type = k
  · rw [eat_eq_stateAt h]
    have := measure_stateAt_lt p.lexer.input p.lexer.currentPos
    unfold Parser.measure at this ⊢
    rw [h, hk]
    simp only [if_true]
    omega
  · unfold Parser.eat
    simp [h]

theorem measure_eat_lt (p : Parser) (hk : p.currentToken.type.consuming = true) :
    (p.eat p.currentToken.type).measure < p.measure := by
  rw [eat_eq_stateAt rfl]
  have := measure_stateAt_lt p.lexer.input p.lexer.currentPos
  unfold Parser.measure at this ⊢
  rw [hk]
  simp only [if_true]
  omega

/-- With a budget of three times the measure (plus a constant per function) no grammar
function runs out of budget, and none of them increases the measure. -/
theorem fuel_enough : ∀ n,
    (∀ p, 3 * p.measure + 1 ≤ n → factor n p ≠ .out_of_fuel ∧
      ∀ t p1, factor n p = .returned t p1 → p1.measure ≤ p.measure) ∧
    (∀ t0 p, 3 * p.measure + 1 ≤ n → termLoop n t0 p ≠ .out_of_fuel ∧
      ∀ t p1, termLoop n t0 p = .returned t p1 → p1.measure ≤ p.measure) ∧
    (∀ p, 3 * p.measure + 2 ≤ n → term n p ≠ .out_of_fuel ∧
      ∀ t p1, term n p = .returned t p1 → p1.measure ≤ p.measure) ∧
    (∀ t0 p, 3 * p.measure + 2 ≤ n → exprLoop n t0 p ≠ .out_of_fuel ∧
      ∀ t p1, exprLoop n t0 p = .returned t p1 → p1.measure ≤ p.measure) ∧
    (∀ p, 3 * p.measure + 3 ≤ n → expr n p ≠ .out_of_fuel ∧
      ∀ t p1, expr n p = .returned t p1 → p1.measure ≤ p.measure) := by
  intro n
  induction n with
  | zero =>
    refine ⟨?_, ?_, ?_, ?_, ?_⟩ <;> intros <;> omega
  | succ n ih =>
    obtain ⟨ihF, ihTL, ihT, ihEL, ihE⟩ := ih
    refine ⟨?_, ?_, ?_, ?_, ?_⟩
    · intro p hn
      rw [factor]
      by_cases h1 : p.currentToken.type = .OPEN_PAREN
      · have hlt := measure_eat_lt p (by rw [h1]; decide)
        rw [h1] at hlt
        obtain ⟨hne, hm⟩ := ihE (p.eat .OPEN_PAREN) (by omega)
        simp only [h1, if_true]
        cases he : expr n (p.eat .OPEN_PAREN) with
        | returned t p1 =>
          refine ⟨by simp, ?_⟩
          intro t' p1' heq
          simp only [ParseResult.returned.injEq] at heq
          have h2 := hm t p1 he
          have h3 := measure_eat_le p1 .CLOSE_PAREN (by decide)
          rw [← heq.2]
          omega
        | threw e => exact ⟨by simp, by simp⟩
        | out_of_fuel => exact absurd he hne
      · simp only [h1, if_false]
        by_cases h2 : p.currentToken.type = .INTEGER
        · simp only [h2, if_true]
          have h3 := measure_eat_le p .INTEGER (by decide)
          cases stoi p.currentToken.value with
          | ok v =>
            refine ⟨by simp, ?_⟩
            intro t' p1' heq
            simp only [ParseResult.returned.injEq] at heq
            rw [← heq.2]
            exact h3
          | error e => exact ⟨by simp, by simp⟩
        · simp only [h2, if_false]
          refine ⟨by simp, ?_⟩
          intro t' p1' heq
          simp only [ParseResult.returned.injEq] at heq
          rw [← heq.2]
    · intro t0 p hn
      rw [termLoop]
      by_cases h1 : p.currentToken.type = .MULTIPLY ∨ p.currentToken.type = .DIVIDE
      · have hlt := measure_eat_lt p (by rcases h1 with h | h <;> rw [h] <;> decide)
        obtain ⟨hne, hm⟩ := ihF (p.eat p.currentToken.type) (by omega)
        simp only [h1, if_true]
        cases he : factor n (p.eat p.currentToken.type) with
        | returned t p1 =>
          have h2 := hm t p1 he
          obtain ⟨hne2, hm2⟩ := ihTL (.BinOpNode p.currentToken.type t0 t) p1 (by omega)
          refine ⟨hne2, ?_⟩
          intro t' p1' heq
          have := hm2 t' p1' heq
          omega
        | threw e => exact ⟨by simp, by simp⟩
        | out_of_fuel => exact absurd he hne
      · simp only [h1, if_false]
        refine ⟨by simp, ?_⟩
        intro t' p1' heq
        simp only [ParseResult.returned.injEq] at heq
        rw [← heq.2]
    · intro p hn
      rw [term]
      obtain ⟨hne, hm⟩ := ihF p (by omega)
      cases he : factor n p with
      | returned t p1 =>
        have h2 := hm t p1 he
        obtain ⟨hne2, hm2⟩ := ihTL t p1 (by omega)
        refine ⟨hne2, ?_⟩
        intro t' p1' heq
        have := hm2 t' p1' heq
        omega
      | threw e => exact ⟨by simp, by simp⟩
      | out_of_fuel => exact absurd he hne
    · intro t0 p hn
      rw [exprLoop]
      by_cases h1 : p.currentToken.type = .PLUS ∨ p.currentToken.type = .MINUS
      · have hlt := measure_eat_lt p (by rcases h1 with h | h <;> rw [h] <;> decide)
        obtain ⟨hne, hm⟩ := ihT (p.eat p.currentToken.type) (by omega)
        simp only [h1, if_true]
        cases he : term n (p.eat p.currentToken.type) with
        | returned t p1 =>
          have h2 := hm t p1 he
          obtain ⟨hne2, hm2⟩ := ihEL (.BinOpNode p.currentToken.type t0 t) p1 (by omega)
          refine ⟨hne2, ?_⟩
          intro t' p1' heq
          have := hm2 t' p1' heq
          omega
        | threw e => exact ⟨by simp, by simp⟩
        | out_of_fuel => exact absurd he hne
      · simp only [h1, if_false]
        refine ⟨by simp, ?_⟩
        intro t' p1' heq
        simp only [ParseResult.returned.injEq] at heq
        rw [← heq.2]
    · intro p hn
      rw [expr]
      obtain ⟨hne, hm⟩ := ihT p (by omega)
      cases he : term n p with
      | returned t p1 =>
        have h2 := hm t p1 he
        obtain ⟨hne2, hm2⟩ := ihEL t p1 (by omega)
        refine ⟨hne2, ?_⟩
        intro t' p1' heq
        have := hm2 t' p1' heq
        omega
      | threw e => exact ⟨by simp, by simp⟩
      | out_of_fuel => exact absurd he hne

/-- The budget handed out by `parse` is never used up. -/
theorem parse_ne_out_of_fuel (input : List Char) : parse input ≠ .out_of_fuel := by
  unfold parse parseFuel Lexer.create
  have h := measure_stateAt_lt input 0
  unfold stateAt at h
  exact ((fuel_enough _).2.2.2.2 _ (by
    simp only [Nat.sub_zero] at h
    omega)).1

/-- A run of `expr` from the initial state is what `parse` returns. -/
theorem parse_eq_of_runs {input : List Char} {r : ParseResult}
    (h : Runs (fun n => expr n (stateAt input 0)) r) : parse input = r := by
  obtain ⟨n, hn, hr⟩ := h
  simp only at hn
  have hne := parse_ne_out_of_fuel input
  have hp : parse input = expr (parseFuel input) (stateAt input 0) := rfl
  rw [hp] at hne ⊢
  have e1 := expr_fuel_le (le_max_left (parseFuel input) n) _ hne
  have e2 := expr_fuel_le (le_max_right (parseFuel input) n) _ (by rw [hn]; exact hr)
  rw [← e1, e2, hn]

/-! ### Decimal literals -/

theorem digitChar_isdigit {d : Nat} (h : d < 10) : isdigit (Nat.digitChar d) = true := by
  interval_cases d <;> decide

theorem digitChar_toNat {d : Nat} (h : d < 10) : (Nat.digitChar d).toNat - 48 = d := by
  interval_cases d <;> decide

theorem digitsValue_snoc (s : List Char) (c : Char) :
    digitsValue (s ++ [c]) = 10 * digitsValue s + (c.toNat - 48) := by
  simp [digitsValue, List.foldl_append]

theorem toDigitsCore_append (fuel : Nat) : ∀ (n : Nat) (acc : List Char),
    Nat.toDigitsCore 10 fuel n acc = Nat.toDigitsCore 10 fuel n [] ++ acc := by
  induction fuel with
  | zero => intro n acc; simp [Nat.toDigitsCore]
  | succ fuel ih =>
    intro n acc
    simp only [Nat.toDigitsCore]
    by_cases h : n / 10 = 0
    · simp [h]
    · simp only [h, if_false]
      rw [ih (n / 10) (Nat.digitChar (n % 10) :: acc), ih (n / 10) [Nat.digitChar (n % 10)]]
      simp

theorem toDigitsCore_spec (fuel : Nat) : ∀ n, n < fuel →
    Nat.toDigitsCore 10 fuel n [] ≠ [] ∧
    (∀ c ∈ Nat.toDigitsCore 10 fuel n [], isdigit c = true) ∧
    digitsValue (Nat.toDigitsCore 10 fuel n []) = n := by
  induction fuel with
  | zero => intro n h; omega
  | succ fuel ih =>
    intro n hn
    simp only [Nat.toDigitsCore]
    have hmod : n % 10 < 10 := Nat.mod_lt _ (by decide)
    by_cases h : n / 10 = 0
    · simp only [h, if_true]
      refine ⟨by simp, ?_, ?_⟩
      · intro c hc
        simp only [List.mem_singleton] at hc
        rw [hc]; exact digitChar_isdigit hmod
      · have := digitsValue_snoc [] (Nat.digitChar (n % 10))
        simp only [List.nil_append] at this
        rw [this, digitChar_toNat hmod]
        simp [digitsValue]
        omega
    · simp only [h, if_false]
      rw [toDigitsCore_append]
      obtain ⟨-, h2, h3⟩ := ih (n / 10) (by omega)
      refine ⟨by simp, ?_, ?_⟩
      · intro c hc
        rcases List.mem_append.mp hc with hc | hc
        · exact h2 c hc
        · simp only [List.mem_singleton] at hc
          rw [hc]; exact digitChar_isdigit hmod
      · rw [digitsValue_snoc, h3, digitChar_toNat hmod]
        omega

theorem decimal_ne_nil (n : Nat) : decimal n ≠ [] :=
  (toDigitsCore_spec (n + 1) n (Nat.lt_succ_self n)).1

theorem decimal_isdigit (n : Nat) : ∀ c ∈ decimal n, isdigit c = true :=
  (toDigitsCore_spec (n + 1) n (Nat.lt_succ_self n)).2.1

theorem digitsValue_decimal (n : Nat) : digitsValue (decimal n) = n :=
  (toDigitsCore_spec (n + 1) n (Nat.lt_succ_self n)).2.2

/-- A decimal literal that fits in `int` is a factor denoting its number. -/
theorem derives_decimal {n : Nat} (h : (n : Int) ≤ INT_MAX) :
    Derives .factor (.num n) (decimal n) := by
  have := Derives.literal (decimal n) (decimal_ne_nil n) (decimal_isdigit n)
    (by rw [digitsValue_decimal]; exact h)
  rw [digitsValue_decimal] at this
  exact this

/-! ### Parsing a whole input -/

theorem evalAST_toAST (e : Expr) : evalAST (toAST e) = e.eval := by
  induction e with
  | num n => rfl
  | bin op l r ihl ihr =>
    simp only [toAST, evalAST, Expr.eval, ihl, ihr]
    cases l.eval <;> cases r.eval <;> cases op <;> rfl

theorem blank_nil : Blank [] := by
  intro c hc
  simp at hc

theorem stateAt_blank_end {input : List Char} {pos : Nat} {ws : List Char}
    (h : input.drop pos = ws) (hws : Blank ws) (hpos : pos ≤ input.length) :
    stateAt input pos = finalState input := by
  have h' : input.drop pos = ws ++ [] := by simpa using h
  have hlen : pos + ws.length = input.length := by
    have := congrArg List.length h
    rw [List.length_drop] at this
    omega
  rw [stateAt_eq, h', scan_spaces hws, scan_nil]
  unfold finalState
  simp only [Nat.add_zero]
  rw [hlen]

/-- Parsing a well-formed text that is followed by `rest`: the tree is the one the grammar
assigns, and the lookahead is the first token of `rest`, provided `rest` neither continues the
last literal nor starts with an operator. -/
theorem parse_derives_then {e : Expr} {s : List Char} (h : Derives .expr e s)
    {ws1 : List Char} (h1 : Blank ws1) (rest : List Char)
    (hrest : rest.takeWhile isdigit = [])
    (hnm : ¬((stateAt (ws1 ++ (s ++ rest)) (ws1.length + s.length)).currentToken.type = .MULTIPLY ∨
      (stateAt (ws1 ++ (s ++ rest)) (ws1.length + s.length)).currentToken.type = .DIVIDE))
    (hna : ¬((stateAt (ws1 ++ (s ++ rest)) (ws1.length + s.length)).currentToken.type = .PLUS ∨
      (stateAt (ws1 ++ (s ++ rest)) (ws1.length + s.length)).currentToken.type = .MINUS)) :
    parse (ws1 ++ (s ++ rest)) =
      .returned (toAST e) (stateAt (ws1 ++ (s ++ rest)) (ws1.length + s.length)) := by
  apply parse_eq_of_runs
  have d0 : (ws1 ++ (s ++ rest)).drop 0 = ws1 ++ (s ++ rest) := rfl
  have d1 := drop_step d0
  rw [stateAt_blank d0 h1]
  have := parsesAt_of_derives h (ws1 ++ (s ++ rest)) (0 + ws1.length) rest d1 hrest
  simp only [Nat.zero_add] at this ⊢
  exact this hnm _ (runs_exprLoop_stop (toAST e) hna)

/-- Parsing a well-formed text, with optional whitespace around it, gives the tree the grammar
assigns to it and reads the whole input. -/
theorem parse_derives {e : Expr} {s : List Char} (h : Derives .expr e s)
    {ws1 ws2 : List Char} (h1 : Blank ws1) (h2 : Blank ws2) :
    parse (ws1 ++ (s ++ ws2)) = .returned (toAST e) (finalState (ws1 ++ (s ++ ws2))) := by
  have d0 : (ws1 ++ (s ++ ws2)).drop 0 = ws1 ++ (s ++ ws2) := rfl
  have d2 : (ws1 ++ (s ++ ws2)).drop (ws1.length + s.length) = ws2 := by
    simp
  have hfin := stateAt_blank_end d2 h2 (by simp only [List.length_append]; omega)
  have := parse_derives_then h h1 ws2 (by
      have := takeWhile_digit_blank h2 [] rfl
      simpa using this)
    (by rw [hfin]; simp [finalState]) (by rw [hfin]; simp [finalState])
  rw [hfin] at this
  exact this

theorem parse_derives_plain {e : Expr} {s : List Char} (h : Derives .expr e s) :
    parse s = .returned (toAST e) (finalState s) := by
  have := parse_derives h blank_nil blank_nil
  simpa using this

/-! ### Renderings are generated by the grammar -/

theorem derives_fits {lvl : Level} {e : Expr} {s : List Char} (h : Derives lvl e s) :
    e.Fits := by
  induction h with
  | literal ds hne hds hfit => exact hfit
  | paren ws1 ws2 h1 h2 _ ih => exact ih
  | factor _ ih => exact ih
  | mul op hop ws1 ws2 h1 h2 _ _ ihl ihr => exact ⟨ihl, ihr⟩
  | term _ ih => exact ih
  | add op hop ws1 ws2 h1 h2 _ _ ihl ihr => exact ⟨ihl, ihr⟩

theorem derives_expr_of_atLevel {k : Nat} {e : Expr} {s : List Char}
    (h : Derives (atLevel k) e s) : Derives .expr e s := by
  match k, h with
  | 0, h => exact h
  | 1, h => exact Derives.term h
  | _ + 2, h => exact Derives.term (Derives.factor h)

theorem derives_atLevel_of_factor {e : Expr} {s : List Char} (h : Derives .factor e s)
    (j : Nat) : Derives (atLevel j) e s := by
  match j with
  | 0 => exact Derives.term (Derives.factor h)
  | 1 => exact Derives.factor h
  | _ + 2 => exact h

theorem derives_atLevel_le {k j : Nat} {e : Expr} {s : List Char}
    (h : Derives (atLevel k) e s) (hjk : j ≤ k) : Derives (atLevel j) e s := by
  match k, j, h, hjk with
  | 0, 0, h, _ => exact h
  | 1, 0, h, _ => exact Derives.term h
  | 1, 1, h, _ => exact h
  | _ + 2, j, h, _ => exact derives_atLevel_of_factor h j

theorem derives_wrap {k j : Nat} {e : Expr} {s : List Char}
    (h : Derives (atLevel k) e s) : Derives (atLevel j) e (wrap (decide (k < j)) s) := by
  by_cases hkj : k < j
  · have hp := Derives.paren [] [] blank_nil blank_nil (derives_expr_of_atLevel h)
    simp only [wrap, hkj, decide_True, if_true]
    exact derives_atLevel_of_factor hp j
  · simp only [wrap, hkj, decide_False]
    exact derives_atLevel_le h (by omega)

/-- The minimally parenthesised text of an expression is generated by the grammar, at the
level of its outermost construct, and denotes that expression. -/
theorem derives_render (e : Expr) (hf : e.Fits) : Derives (atLevel e.level) e (render e) := by
  induction e with
  | num n => exact derives_decimal hf
  | bin op l r ihl ihr =>
    have hl := ihl hf.1
    have hr := ihr hf.2
    cases hop : op.isMul with
    | true =>
      have hlev : op.level = 1 := by simp [Op.level, hop]
      have h1 : Derives .term l (wrap (decide (l.level < 1)) (render l)) :=
        derives_wrap (j := 1) hl
      have h2 : Derives .factor r (wrap (decide (r.level < 2)) (render r)) :=
        derives_wrap (j := 2) hr
      have := Derives.mul op hop [] [] blank_nil blank_nil h1 h2
      simp only [Expr.level, render, hlev]
      exact this
    | false =>
      have hlev : op.level = 0 := by simp [Op.level, hop]
      have h1 : Derives .expr l (wrap (decide (l.level < 0)) (render l)) :=
        derives_wrap (j := 0) hl
      have h2 : Derives .term r (wrap (decide (r.level < 1)) (render r)) :=
        derives_wrap (j := 1) hr
      have := Derives.add op hop [] [] blank_nil blank_nil h1 h2
      simp only [Expr.level, render, hlev]
      exact this

/-- The fully parenthesised text of an expression is generated by the grammar and denotes that
expression. -/
theorem derives_renderFull (e : Expr) (hf : e.Fits) : Derives .factor e (renderFull e) := by
  induction e with
  | num n => exact derives_decimal hf
  | bin op l r ihl ihr =>
    have hl := ihl hf.1
    have hr := ihr hf.2
    have inner : Derives .expr (.bin op l r) (renderFull l ++ (op.char :: renderFull r)) := by
      cases hop : op.isMul with
      | true =>
        exact Derives.term (Derives.mul op hop [] [] blank_nil blank_nil (Derives.factor hl) hr)
      | false =>
        exact Derives.add op hop [] [] blank_nil blank_nil
          (Derives.term (Derives.factor hl)) (Derives.factor hr)
    have := Derives.paren [] [] blank_nil blank_nil inner
    simp only [List.nil_append, List.append_assoc, List.cons_append] at this
    exact this

/-! ### Claims C1 to C4: well-formed expressions -/

/-- C1. For every text `s` generated by the grammar expr/term/factor (literals that fit in
`int`, optional whitespace between tokens and around the text) and denoting the tree `e` under
standard precedence and left-to-right grouping, `parse` returns exactly the tree `e`, having
read the whole input; the reference evaluator gives that tree the value of `e`; and the same
tree comes back from the minimally parenthesised and from the fully parenthesised rendering
of `e`. -/
theorem parse_wellformed (e : Expr) (s ws1 ws2 : List Char) (h : Derives .expr e s)
    (h1 : Blank ws1) (h2 : Blank ws2) :
    parse (ws1 ++ (s ++ ws2)) = .returned (toAST e) (finalState (ws1 ++ (s ++ ws2))) ∧
    evalAST (toAST e) = e.eval ∧
    parse (render e) = .returned (toAST e) (finalState (render e)) ∧
    parse (renderFull e) = .returned (toAST e) (finalState (renderFull e)) :=
  ⟨parse_derives h h1 h2, evalAST_toAST e,
   parse_derives_plain (derives_expr_of_atLevel (derives_render e (derives_fits h))),
   parse_derives_plain (Derives.term (Derives.factor (derives_renderFull e (derives_fits h))))⟩

theorem parse_wellformed_witness :
    Derives .expr (.bin .plus (.num 2) (.bin .times (.num 3) (.num 4)))
      ['2', '+', '3', ' ', '*', '4'] ∧
    Blank [' '] ∧
    parse ([' '] ++ (['2', '+', '3', ' ', '*', '4'] ++ [' '])) =
      .returned (.BinOpNode .PLUS (.NumNode 2) (.BinOpNode .MULTIPLY (.NumNode 3) (.NumNode 4)))
        (finalState ([' '] ++ (['2', '+', '3', ' ', '*', '4'] ++ [' ']))) ∧
    evalAST (.BinOpNode .PLUS (.NumNode 2) (.BinOpNode .MULTIPLY (.NumNode 3) (.NumNode 4))) =
      some 14 ∧
    parse ['2', '+', '3', '*', '4'] =
      .returned (.BinOpNode .PLUS (.NumNode 2) (.BinOpNode .MULTIPLY (.NumNode 3) (.NumNode 4)))
        (finalState ['2', '+', '3', '*', '4']) ∧
    parse ['(', '2', '+', '(', '3', '*', '4', ')', ')'] =
      .returned (.BinOpNode .PLUS (.NumNode 2) (.BinOpNode .MULTIPLY (.NumNode 3) (.NumNode 4)))
        (finalState ['(', '2', '+', '(', '3', '*', '4', ')', ')']) := by
  have hd : Derives .expr (.bin .plus (.num 2) (.bin .times (.num 3) (.num 4)))
      ['2', '+', '3', ' ', '*', '4'] :=
    Derives.add .plus rfl [] [] blank_nil blank_nil
      (Derives.term (Derives.factor
        (Derives.literal ['2'] (by decide) (by decide) (by decide))))
      (Derives.mul .times rfl [' '] [] (by unfold Blank; decide) blank_nil
        (Derives.factor (Derives.literal ['3'] (by decide) (by decide) (by decide)))
        (Derives.literal ['4'] (by decide) (by decide) (by decide)))
  have hb : Blank [' '] := by unfold Blank; decide
  have h := parse_wellformed (.bin .plus (.num 2) (.bin .times (.num 3) (.num 4)))
    ['2', '+', '3', ' ', '*', '4'] [' '] [' '] hd hb hb
  exact ⟨hd, hb, h.1, by decide, h.2.2.1, h.2.2.2⟩

/-- C2. Precedence: for literals `a`, `b`, `c` that fit in `int`, `parse` of `a+b*c` returns
`BinOp(+, Num a, BinOp(*, Num b, Num c))` and `parse` of `(a+b)*c` returns
`BinOp(*, BinOp(+, Num a, Num b), Num c)`; the tree of `2+3*4` evaluates to 14 and that of
`(2+3)*4` to 20. -/
theorem parse_precedence (a b c : Nat) (ha : (a : Int) ≤ INT_MAX) (hb : (b : Int) ≤ INT_MAX)
    (hc : (c : Int) ≤ INT_MAX) :
    parse (decimal a ++ ('+' :: (decimal b ++ ('*' :: decimal c)))) =
      .returned (.BinOpNode .PLUS (.NumNode a) (.BinOpNode .MULTIPLY (.NumNode b) (.NumNode c)))
        (finalState (decimal a ++ ('+' :: (decimal b ++ ('*' :: decimal c))))) ∧
    parse ('(' :: (decimal a ++ ('+' :: (decimal b ++ (')' :: '*' :: decimal c))))) =
      .returned (.BinOpNode .MULTIPLY (.BinOpNode .PLUS (.NumNode a) (.NumNode b)) (.NumNode c))
        (finalState ('(' :: (decimal a ++ ('+' :: (decimal b ++ (')' :: '*' :: decimal c)))))) ∧
    (parse ['2', '+', '3', '*', '4']).value = some 14 ∧
    (parse ['(', '2', '+', '3', ')', '*', '4']).value = some 20 := by
  refine ⟨?_, ?_, by decide, by decide⟩
  · exact parse_derives_plain
      (Derives.add .plus rfl [] [] blank_nil blank_nil
        (Derives.term (Derives.factor (derives_decimal ha)))
        (Derives.mul .times rfl [] [] blank_nil blank_nil
          (Derives.factor (derives_decimal hb)) (derives_decimal hc)))
  · have := parse_derives_plain
      (Derives.term (Derives.mul .times rfl [] [] blank_nil blank_nil
        (Derives.factor (Derives.paren [] [] blank_nil blank_nil
          (Derives.add .plus rfl [] [] blank_nil blank_nil
            (Derives.term (Derives.factor (derives_decimal ha)))
            (Derives.factor (derives_decimal hb)))))
        (derives_decimal hc)))
    simp only [List.nil_append, List.append_assoc, List.cons_append, Op.char] at this
    exact this

theorem parse_precedence_witness :
    ((2 : Nat) : Int) ≤ INT_MAX ∧ ((3 : Nat) : Int) ≤ INT_MAX ∧ ((4 : Nat) : Int) ≤ INT_MAX ∧
    parse (decimal 2 ++ ('+' :: (decimal 3 ++ ('*' :: decimal 4)))) =
      .returned (.BinOpNode .PLUS (.NumNode (2 : Nat))
          (.BinOpNode .MULTIPLY (.NumNode (3 : Nat)) (.NumNode (4 : Nat))))
        (finalState (decimal 2 ++ ('+' :: (decimal 3 ++ ('*' :: decimal 4))))) :=
  ⟨by decide, by decide, by decide,
   (parse_precedence 2 3 4 (by decide) (by decide) (by decide)).1⟩

/-- C3. Additive operators group to the left: for literals `a`, `b`, `c` that fit in `int`,
`parse` of `a+b-c` returns `BinOp(-, BinOp(+, Num a, Num b), Num c)` and `parse` of `a-b+c`
returns `BinOp(+, BinOp(-, Num a, Num b), Num c)`; neither result is the right-nested tree. -/
theorem parse_additive_left_assoc (a b c : Nat) (ha : (a : Int) ≤ INT_MAX)
    (hb : (b : Int) ≤ INT_MAX) (hc : (c : Int) ≤ INT_MAX) :
    parse (decimal a ++ ('+' :: (decimal b ++ ('-' :: decimal c)))) =
      .returned (.BinOpNode .MINUS (.BinOpNode .PLUS (.NumNode a) (.NumNode b)) (.NumNode c))
        (finalState (decimal a ++ ('+' :: (decimal b ++ ('-' :: decimal c))))) ∧
    parse (decimal a ++ ('-' :: (decimal b ++ ('+' :: decimal c)))) =
      .returned (.BinOpNode .PLUS (.BinOpNode .MINUS (.NumNode a) (.NumNode b)) (.NumNode c))
        (finalState (decimal a ++ ('-' :: (decimal b ++ ('+' :: decimal c))))) ∧
    (∀ st, parse (decimal a ++ ('+' :: (decimal b ++ ('-' :: decimal c)))) ≠
      .returned (.BinOpNode .PLUS (.NumNode a) (.BinOpNode .MINUS (.NumNode b) (.NumNode c))) st) ∧
    (∀ st, parse (decimal a ++ ('-' :: (decimal b ++ ('+' :: decimal c)))) ≠
      .returned (.BinOpNode .MINUS (.NumNode a) (.BinOpNode .PLUS (.NumNode b) (.NumNode c))) st) := by
  have h1 : parse (decimal a ++ ('+' :: (decimal b ++ ('-' :: decimal c)))) =
      .returned (.BinOpNode .MINUS (.BinOpNode .PLUS (.NumNode a) (.NumNode b)) (.NumNode c))
        (finalState (decimal a ++ ('+' :: (decimal b ++ ('-' :: decimal c))))) := by
    have := parse_derives_plain
      (Derives.add .minus rfl [] [] blank_nil blank_nil
        (Derives.add .plus rfl [] [] blank_nil blank_nil
          (Derives.term (Derives.factor (derives_decimal ha)))
          (Derives.factor (derives_decimal hb)))
        (Derives.factor (derives_decimal hc)))
    simp only [List.nil_append, List.append_assoc, List.cons_append, Op.char] at this
    exact this
  have h2 : parse (decimal a ++ ('-' :: (decimal b ++ ('+' :: decimal c)))) =
      .returned (.BinOpNode .PLUS (.BinOpNode .MINUS (.NumNode a) (.NumNode b)) (.NumNode c))
        (finalState (decimal a ++ ('-' :: (decimal b ++ ('+' :: decimal c))))) := by
    have := parse_derives_plain
      (Derives.add .plus rfl [] [] blank_nil blank_nil
        (Derives.add .minus rfl [] [] blank_nil blank_nil
          (Derives.term (Derives.factor (derives_decimal ha)))
          (Derives.factor (derives_decimal hb)))
        (Derives.factor (derives_decimal hc)))
    simp only [List.nil_append, List.append_assoc, List.cons_append, Op.char] at this
    exact this
  refine ⟨h1, h2, ?_, ?_⟩
  · intro st; rw [h1]; simp
  · intro st; rw [h2]; simp

theorem parse_additive_left_assoc_witness :
    ((7 : Nat) : Int) ≤ INT_MAX ∧ ((10 : Nat) : Int) ≤ INT_MAX ∧ ((5 : Nat) : Int) ≤ INT_MAX ∧
    parse (decimal 7 ++ ('-' :: (decimal 10 ++ ('+' :: decimal 5)))) =
      .returned (.BinOpNode .PLUS (.BinOpNode .MINUS (.NumNode (7 : Nat)) (.NumNode (10 : Nat)))
          (.NumNode (5 : Nat)))
        (finalState (decimal 7 ++ ('-' :: (decimal 10 ++ ('+' :: decimal 5))))) :=
  ⟨by decide, by decide, by decide,
   (parse_additive_left_assoc 7 10 5 (by decide) (by decide) (by decide)).2.1⟩

/-- C4. Multiplicative operators group to the left: for literals `a`, `b`, `c` that fit in
`int`, operators `o1`, `o2` among `*` and `/`, and optional whitespace between the tokens,
`parse` of `a o1 b o2 c` returns `BinOp(o2, BinOp(o1, Num a, Num b), Num c)`; the tree of
`8/4/2` is that of `(8/4)/2` and evaluates to 1. -/
theorem parse_multiplicative_left_assoc (a b c : Nat) (o1 o2 : Op)
    (w1 w2 w3 w4 : List Char)
    (ha : (a : Int) ≤ INT_MAX) (hb : (b : Int) ≤ INT_MAX) (hc : (c : Int) ≤ INT_MAX)
    (h1 : o1.isMul = true) (h2 : o2.isMul = true)
    (hw1 : Blank w1) (hw2 : Blank w2) (hw3 : Blank w3) (hw4 : Blank w4) :
    parse (decimal a ++ (w1 ++ (o1.char :: (w2 ++ (decimal b ++
        (w3 ++ (o2.char :: (w4 ++ decimal c)))))))) =
      .returned
        (.BinOpNode o2.kind (.BinOpNode o1.kind (.NumNode a) (.NumNode b)) (.NumNode c))
        (finalState (decimal a ++ (w1 ++ (o1.char :: (w2 ++ (decimal b ++
          (w3 ++ (o2.char :: (w4 ++ decimal c))))))))) ∧
    parse ['8', '/', '4', '/', '2'] =
      .returned (.BinOpNode .DIVIDE (.BinOpNode .DIVIDE (.NumNode 8) (.NumNode 4)) (.NumNode 2))
        (finalState ['8', '/', '4', '/', '2']) ∧
    (parse ['8', '/', '4', '/', '2']).value = some 1 := by
  refine ⟨?_, by decide, by decide⟩
  have := parse_derives_plain
    (Derives.term (Derives.mul o2 h2 w3 w4 hw3 hw4
      (Derives.mul o1 h1 w1 w2 hw1 hw2
        (Derives.factor (derives_decimal ha)) (derives_decimal hb))
      (derives_decimal hc)))
  simp only [List.nil_append, List.append_assoc, List.cons_append] at this
  exact this

theorem parse_multiplicative_left_assoc_witness :
    ((8 : Nat) : Int) ≤ INT_MAX ∧ Op.divide.isMul = true ∧ Op.times.isMul = true ∧
    Blank [' ', ' '] ∧
    parse (decimal 8 ++ ([' '] ++ (Op.divide.char :: ([] ++ (decimal 4 ++
        ([] ++ (Op.times.char :: ([' ', ' '] ++ decimal 2)))))))) =
      .returned
        (.BinOpNode Op.times.kind
          (.BinOpNode Op.divide.kind (.NumNode (8 : Nat)) (.NumNode (4 : Nat)))
          (.NumNode (2 : Nat)))
        (finalState (decimal 8 ++ ([' '] ++ (Op.divide.char :: ([] ++ (decimal 4 ++
          ([] ++ (Op.times.char :: ([' ', ' '] ++ decimal 2))))))))) ∧
    decimal 8 ++ ([' '] ++ (Op.divide.char :: ([] ++ (decimal 4 ++
        ([] ++ (Op.times.char :: ([' ', ' '] ++ decimal 2))))))) =
      ['8', ' ', '/', '4', '*', ' ', ' ', '2'] :=
  ⟨by decide, rfl, rfl, by unfold Blank; decide,
   (parse_multiplicative_left_assoc 8 4 2 .divide .times [' '] [] [] [' ', ' ']
    (by decide) (by decide) (by decide) rfl rfl
    (by unfold Blank; decide) blank_nil blank_nil (by unfold Blank; decide)).1,
   by decide⟩

/-! ### Claims C5 to C9: what `parse` does outside the grammar -/

theorem runs_factor_null {p : Parser} (h1 : p.currentToken.type ≠ .OPEN_PAREN)
    (h2 : p.currentToken.type ≠ .INTEGER) :
    Runs (fun n => factor n p) (.returned .null p) :=
  ⟨1, by simp [factor, h1, h2], by simp⟩

theorem runs_factor_threw {p : Parser} {e : StoiError} (h : p.currentToken.type = .INTEGER)
    (hv : stoi p.currentToken.value = .error e) :
    Runs (fun n => factor n p) (.threw e) :=
  ⟨1, by simp [factor, h, hv], by simp⟩

theorem runs_term_threw {p : Parser} {e : StoiError}
    (hf : Runs (fun n => factor n p) (.threw e)) : Runs (fun n => term n p) (.threw e) := by
  obtain ⟨n, hn, -⟩ := hf
  simp only at hn
  exact ⟨n + 1, by simp [term, hn], by simp⟩

theorem runs_expr_threw {p : Parser} {e : StoiError}
    (hf : Runs (fun n => term n p) (.threw e)) : Runs (fun n => expr n p) (.threw e) := by
  obtain ⟨n, hn, -⟩ := hf
  simp only at hn
  exact ⟨n + 1, by simp [expr, hn], by simp⟩

/-- When the loop of `expr` returns, the lookahead is neither `+` nor `-`. -/
theorem exprLoop_lookahead : ∀ n t p t1 p1, exprLoop n t p = .returned t1 p1 →
    ¬(p1.currentToken.type = .PLUS ∨ p1.currentToken.type = .MINUS) := by
  intro n
  induction n with
  | zero => intro t p t1 p1 h; simp [exprLoop] at h
  | succ n ih =>
    intro t p t1 p1 h
    rw [exprLoop] at h
    by_cases hc : p.currentToken.type = .PLUS ∨ p.currentToken.type = .MINUS
    · simp only [hc, if_true] at h
      cases ht : term n (p.eat p.currentToken.type) with
      | returned t2 p2 =>
        rw [ht] at h
        exact ih _ _ _ _ h
      | threw e => rw [ht] at h; simp at h
      | out_of_fuel => rw [ht] at h; simp at h
    · simp only [hc, if_false, ParseResult.returned.injEq] at h
      rw [← h.2]
      exact hc

theorem expr_lookahead (n : Nat) (p : Parser) (t1 : ASTNode) (p1 : Parser)
    (h : expr n p = .returned t1 p1) :
    ¬(p1.currentToken.type = .PLUS ∨ p1.currentToken.type = .MINUS) := by
  cases n with
  | zero => simp [expr] at h
  | succ n =>
    rw [expr] at h
    cases ht : term n p with
    | returned t2 p2 =>
      rw [ht] at h
      exact exprLoop_lookahead _ _ _ _ _ h
    | threw e => rw [ht] at h; simp at h
    | out_of_fuel => rw [ht] at h; simp at h

/-- C5 (as amended). `parse` returns the node that `expr` builds and reports nothing about
what follows it: for a well-formed expression `s` followed by text `rest` that neither
continues the last literal of `s` nor starts with an operator, `parse` returns the tree of `s`
and leaves the first token of `rest` as lookahead; and whenever `parse` returns, the lookahead
is neither `+` nor `-`. -/
theorem parse_leftover (e : Expr) (s rest : List Char) (h : Derives .expr e s)
    (hrest : rest.takeWhile isdigit = [])
    (hop : (Parser.create { input := s ++ rest, currentPos := s.length }).currentToken.type ∉
      [TokenType.PLUS, TokenType.MINUS, TokenType.MULTIPLY, TokenType.DIVIDE]) :
    parse (s ++ rest) =
      .returned (toAST e) (Parser.create { input := s ++ rest, currentPos := s.length }) ∧
    ∀ input t st, parse input = .returned t st →
      st.currentToken.type ≠ .PLUS ∧ st.currentToken.type ≠ .MINUS := by
  constructor
  · have := parse_derives_then h blank_nil rest hrest
    simp only [List.nil_append, List.length_nil, Nat.zero_add] at this
    apply this
    · intro hc
      apply hop
      unfold stateAt at hc
      rcases hc with hc | hc <;> rw [hc] <;> simp
    · intro hc
      apply hop
      unfold stateAt at hc
      rcases hc with hc | hc <;> rw [hc] <;> simp
  · intro input t st hp
    have := expr_lookahead _ _ _ _ hp
    exact ⟨fun h1 => this (Or.inl h1), fun h2 => this (Or.inr h2)⟩

theorem parse_leftover_witness :
    Derives .expr (.num 1) ['1'] ∧
    [' ', '2'].takeWhile isdigit = [] ∧
    (Parser.create { input := ['1'] ++ [' ', '2'], currentPos := ['1'].length }).currentToken =
      { type := .INTEGER, value := ['2'] } ∧
    parse (['1'] ++ [' ', '2']) =
      .returned (toAST (.num 1))
        (Parser.create { input := ['1'] ++ [' ', '2'], currentPos := ['1'].length }) :=
  ⟨Derives.term (Derives.factor (Derives.literal ['1'] (by decide) (by decide) (by decide))),
   by decide, by decide,
   (parse_leftover (.num 1) ['1'] [' ', '2']
    (Derives.term (Derives.factor (Derives.literal ['1'] (by decide) (by decide) (by decide))))
    (by decide) (by decide)).1⟩

/-- C5, counterexample: on `1 2` and on `1)` `parse` returns the tree `NumNode 1` although a
token is left over; the lookahead after `parse` is `INTEGER "2"`, respectively `)`, not
`END_OF_FILE`. -/
theorem parse_leftover_counterexample :
    parse ['1', ' ', '2'] =
      .returned (.NumNode 1)
        { lexer := { input := ['1', ' ', '2'], currentPos := 3 },
          currentToken := { type := .INTEGER, value := ['2'] } } ∧
    parse ['1', ')'] =
      .returned (.NumNode 1)
        { lexer := { input := ['1', ')'], currentPos := 2 },
          currentToken := { type := .CLOSE_PAREN, value := [')'] } } := by
  decide

/-- C6, the code at the failing inputs: on `1+` `parse` returns a `BinOpNode` whose right
child is `nullptr`, on `*2` one whose left child is `nullptr`. -/
theorem parse_missing_child :
    parse ['1', '+'] =
      .returned (.BinOpNode .PLUS (.NumNode 1) .null) (finalState ['1', '+']) ∧
    parse ['*', '2'] =
      .returned (.BinOpNode .MULTIPLY .null (.NumNode 2)) (finalState ['*', '2']) := by
  decide

/-- C7 (as amended). An open parenthesis that is never closed is not noticed: for `(`
followed by a well-formed expression and the end of the input, `parse` returns the tree of
the inner expression, with `END_OF_FILE` as lookahead. -/
theorem parse_unclosed (e : Expr) (s ws1 ws2 : List Char) (h : Derives .expr e s)
    (h1 : Blank ws1) (h2 : Blank ws2) :
    parse ('(' :: (ws1 ++ (s ++ ws2))) =
      .returned (toAST e) (finalState ('(' :: (ws1 ++ (s ++ ws2)))) := by
  apply parse_eq_of_runs
  have d0 : ('(' :: (ws1 ++ (s ++ ws2))).drop 0 = '(' :: (ws1 ++ (s ++ ws2)) := rfl
  have d1 := drop_step_cons d0
  have d2 := drop_step d1
  have d3 := drop_step d2
  have hend : stateAt ('(' :: (ws1 ++ (s ++ ws2))) (0 + 1 + ws1.length + s.length) =
      finalState ('(' :: (ws1 ++ (s ++ ws2))) :=
    stateAt_blank_end d3 h2 (by simp only [List.length_cons, List.length_append]; omega)
  have hinner := parsesAt_of_derives h _ (0 + 1 + ws1.length) ws2 d2
    (by have := takeWhile_digit_blank h2 [] rfl; simpa using this)
    (by rw [hend]; simp [finalState]) _
    (runs_exprLoop_stop (toAST e) (by rw [hend]; simp [finalState]))
  rw [hend, ← stateAt_blank d1 h1] at hinner
  rw [stateAt_single d0 (k := .OPEN_PAREN) (by decide)]
  have hf := runs_factor_paren
    (p := { lexer := { input := '(' :: (ws1 ++ (s ++ ws2)), currentPos := 0 + 1 },
            currentToken := { type := .OPEN_PAREN, value := ['('] } }) rfl
    (by rw [eat_eq_stateAt rfl]; exact hinner)
  have hno : (finalState ('(' :: (ws1 ++ (s ++ ws2)))).eat .CLOSE_PAREN =
      finalState ('(' :: (ws1 ++ (s ++ ws2))) := by
    simp [Parser.eat, finalState]
  rw [hno] at hf
  exact runs_expr
    (runs_term hf (runs_termLoop_stop _ (by simp [finalState])))
    (runs_exprLoop_stop _ (by simp [finalState]))

theorem parse_unclosed_witness :
    Derives .expr (.bin .plus (.num 1) (.num 2)) ['1', '+', '2'] ∧
    parse ('(' :: ([] ++ (['1', '+', '2'] ++ []))) =
      .returned (toAST (.bin .plus (.num 1) (.num 2)))
        (finalState ('(' :: ([] ++ (['1', '+', '2'] ++ [])))) :=
  ⟨Derives.add .plus rfl [] [] blank_nil blank_nil
      (Derives.term (Derives.factor (Derives.literal ['1'] (by decide) (by decide) (by decide))))
      (Derives.factor (Derives.literal ['2'] (by decide) (by decide) (by decide))),
   parse_unclosed (.bin .plus (.num 1) (.num 2)) ['1', '+', '2'] [] []
    (Derives.add .plus rfl [] [] blank_nil blank_nil
      (Derives.term (Derives.factor (Derives.literal ['1'] (by decide) (by decide) (by decide))))
      (Derives.factor (Derives.literal ['2'] (by decide) (by decide) (by decide))))
    blank_nil blank_nil⟩

/-- C7, counterexample: on `(1+2` `parse` returns the tree of `1+2`. -/
theorem parse_unclosed_counterexample :
    parse ['(', '1', '+', '2'] =
      .returned (.BinOpNode .PLUS (.NumNode 1) (.NumNode 2)) (finalState ['(', '1', '+', '2']) := by
  decide

/-- C8. On an input that is empty or all whitespace the first lookahead is `END_OF_FILE` and
`parse` returns `nullptr` (no tree, in particular no `NumNode`), with the cursor at the end
of the input. -/
theorem parse_blank (input : List Char) (h : Blank input) :
    (Parser.create (Lexer.create input)).currentToken.type = .END_OF_FILE ∧
    parse input = .returned .null (finalState input) := by
  have d0 : input.drop 0 = input := rfl
  have hs : stateAt input 0 = finalState input := stateAt_blank_end d0 h (Nat.zero_le _)
  constructor
  · have : Parser.create (Lexer.create input) = stateAt input 0 := rfl
    rw [this, hs]
    rfl
  · apply parse_eq_of_runs
    rw [hs]
    exact runs_expr
      (runs_term (runs_factor_null (by simp [finalState]) (by simp [finalState]))
        (runs_termLoop_stop _ (by simp [finalState])))
      (runs_exprLoop_stop _ (by simp [finalState]))

theorem parse_blank_witness :
    Blank [' ', '\t', '\n'] ∧
    (Parser.create (Lexer.create [' ', '\t', '\n'])).currentToken.type = .END_OF_FILE ∧
    parse [' ', '\t', '\n'] = .returned .null (finalState [' ', '\t', '\n']) :=
  ⟨by unfold Blank; decide, parse_blank [' ', '\t', '\n'] (by unfold Blank; decide)⟩

/-- C9 (as amended). For every non-empty string of decimal digits, leading zeros included,
whose number is at most `INT_MAX` = 2147483647, `parse` returns the single node `NumNode`
holding that number; for every longer number `std::stoi` throws `std::out_of_range` and
`parse` returns nothing. -/
theorem parse_digits (ds : List Char) (hne : ds ≠ []) (hds : ∀ c ∈ ds, isdigit c = true) :
    ((digitsValue ds : Int) ≤ INT_MAX →
      parse ds = .returned (.NumNode (digitsValue ds)) (finalState ds)) ∧
    (INT_MAX < (digitsValue ds : Int) → parse ds = .threw .out_of_range) := by
  have d0 : ds.drop 0 = ds ++ [] := by simp
  have hs := stateAt_digits d0 hne hds rfl
  constructor
  · intro hfit
    exact parse_derives_plain (Derives.term (Derives.factor (Derives.literal ds hne hds hfit)))
  · intro hbig
    apply parse_eq_of_runs
    rw [hs]
    apply runs_expr_threw
    apply runs_term_threw
    apply runs_factor_threw rfl
    simp only
    rw [stoi_digits hne hds]
    simp [not_le.mpr hbig]

theorem parse_digits_witness :
    ['0', '0', '7'] ≠ [] ∧ (∀ c ∈ ['0', '0', '7'], isdigit c = true) ∧
    digitsValue ['0', '0', '7'] = 7 ∧
    parse ['0', '0', '7'] = .returned (.NumNode (digitsValue ['0', '0', '7']))
      (finalState ['0', '0', '7']) :=
  ⟨by decide, by decide, by decide,
   (parse_digits ['0', '0', '7'] (by decide) (by decide)).1 (by decide)⟩

/-- C9, counterexample: the digit string `2147483648` makes `std::stoi` throw, so `parse`
yields no `NumNode`. -/
theorem parse_digits_counterexample :
    parse ['2', '1', '4', '7', '4', '8', '3', '6', '4', '8'] = .threw .out_of_range := by
  decide

/-! ### Claim C10: whitespace invariance -/

theorem Ins.weaken : ∀ {prev : Bool} {a b : List Char}, Ins prev a b → Ins false a b
  | _, _, _, .here _ w post hw _ => .here false w post hw (by simp)
  | _, _, _, .skip _ c h => .skip false c h

theorem ins_of_split (w : Char) (hw : isspace w = true) (post : List Char) :
    ∀ (pre : List Char) (prev : Bool),
      ¬(lastDigit prev pre = true ∧ headDigit post = true) →
      Ins prev (pre ++ post) (pre ++ w :: post) := by
  intro pre
  induction pre with
  | nil => intro prev h; exact Ins.here prev w post hw h
  | cons c t ih => intro prev h; exact Ins.skip prev c (ih (isdigit c) h)

theorem lastDigit_getLast? : ∀ (pre : List Char) (prev : Bool), lastDigit prev pre = true →
    (pre = [] ∧ prev = true) ∨ ∃ c, pre.getLast? = some c ∧ isdigit c = true := by
  intro pre
  induction pre with
  | nil => intro prev h; exact Or.inl ⟨rfl, h⟩
  | cons c t ih =>
    intro prev h
    right
    rcases ih (isdigit c) h with ⟨ht, hc⟩ | ⟨d, hd, hdig⟩
    · subst ht; exact ⟨c, by simp, hc⟩
    · refine ⟨d, ?_, hdig⟩
      cases t with
      | nil => simp at hd
      | cons e t' => rw [List.getLast?_cons_cons]; exact hd

theorem headDigit_head? {post : List Char} (h : headDigit post = true) :
    ∃ d, post.head? = some d ∧ isdigit d = true := by
  cases post with
  | nil => simp [headDigit] at h
  | cons d t => exact ⟨d, rfl, h⟩

theorem drop_takeWhile_length (p : Char → Bool) (s : List Char) :
    s.drop (s.takeWhile p).length = s.dropWhile p := by
  induction s with
  | nil => rfl
  | cons c t ih =>
    by_cases hc : p c = true
    · simp [List.takeWhile_cons, List.dropWhile_cons, hc, ih]
    · simp [List.takeWhile_cons, List.dropWhile_cons, hc]

theorem scan_digit_head {c : Char} (hc : isdigit c = true) (t : List Char) :
    scan (c :: t) =
      ({ type := .INTEGER, value := c :: t.takeWhile isdigit }, (t.takeWhile isdigit).length + 1) := by
  unfold scan
  simp [List.takeWhile_cons, List.dropWhile_cons, isdigit_not_space hc, isdigit_charKind hc, hc]

theorem scan_invalid {c : Char} (h1 : isspace c = false) (h2 : charKind c = none)
    (h3 : isdigit c = false) (t : List Char) :
    scan (c :: t) = ({ type := .INVALID, value := [] }, 0) := by
  unfold scan
  simp [List.takeWhile_cons, List.dropWhile_cons, h1, h2, h3]

/-- After a digit, an insertion place further on leaves the rest of the digit run, and what
follows it, related. -/
theorem ins_digits : ∀ {prev : Bool} {a b : List Char}, Ins prev a b → prev = true →
    a.takeWhile isdigit = b.takeWhile isdigit ∧
    Related (a.dropWhile isdigit) (b.dropWhile isdigit) := by
  intro prev a b h
  induction h with
  | here prev w post hw hpos =>
    intro hp
    have hnd : headDigit post = false := by
      cases hh : headDigit post with
      | false => rfl
      | true => exact absurd ⟨hp, hh⟩ hpos
    have hwd := isspace_not_digit hw
    cases post with
    | nil =>
      simp only [List.takeWhile_cons, List.dropWhile_cons, hwd]
      exact ⟨by simp, Or.inr (Ins.here false w [] hw (by simp))⟩
    | cons d t =>
      simp only [headDigit] at hnd
      simp only [List.takeWhile_cons, List.dropWhile_cons, hwd, hnd]
      exact ⟨by simp, Or.inr (Ins.here false w (d :: t) hw (by simp))⟩
  | skip prev c h ih =>
    intro _
    by_cases hc : isdigit c = true
    · obtain ⟨h1, h2⟩ := ih hc
      simp only [List.takeWhile_cons, List.dropWhile_cons, hc, if_true]
      exact ⟨by rw [h1], h2⟩
    · simp only [List.takeWhile_cons, List.dropWhile_cons, hc]
      exact ⟨by simp, Or.inr (Ins.skip false c h)⟩

/-- One call of `getNextToken` on related texts: the same token, and related texts left. -/
theorem scan_ins : ∀ {prev : Bool} {a b : List Char}, Ins prev a b → prev = false →
    (scan a).1 = (scan b).1 ∧ Related (a.drop (scan a).2) (b.drop (scan b).2) := by
  intro prev a b h
  induction h with
  | here prev w post hw hpos =>
    intro _
    rw [scan_space hw]
    exact ⟨rfl, Or.inl (by simp)⟩
  | @skip prev c a b h ih =>
    intro _
    by_cases hs : isspace c = true
    · obtain ⟨h1, h2⟩ := ih (isspace_not_digit hs)
      rw [scan_space hs, scan_space hs]
      exact ⟨h1, by simpa using h2⟩
    · cases hk : charKind c with
      | some k =>
        rw [scan_single hk, scan_single hk]
        exact ⟨rfl, Or.inr (by simpa using h.weaken)⟩
      | none =>
        by_cases hd : isdigit c = true
        · obtain ⟨h1, h2⟩ := ins_digits h hd
          rw [scan_digit_head hd, scan_digit_head hd]
          refine ⟨by simp only [h1], ?_⟩
          simp only [List.drop_succ_cons, drop_takeWhile_length]
          exact h2
        · have hs' : isspace c = false := by simpa using hs
          have hd' : isdigit c = false := by simpa using hd
          rw [scan_invalid hs' hk hd', scan_invalid hs' hk hd']
          exact ⟨rfl, Or.inr (Ins.skip false c h)⟩

theorem scan_related {a b : List Char} (h : Related a b) :
    (scan a).1 = (scan b).1 ∧ Related (a.drop (scan a).2) (b.drop (scan b).2) := by
  rcases h with h | h
  · subst h; exact ⟨rfl, Or.inl rfl⟩
  · exact scan_ins h rfl

theorem getNextToken_rest (l : Lexer) :
    l.getNextToken.2.rest = l.rest.drop (scan l.rest).2 := by
  rw [getNextToken_eq_scan]
  simp only [Lexer.rest]
  rw [List.drop_drop]

theorem getNextToken_sim {l m : Lexer} (h : LexSim l m) :
    l.getNextToken.1 = m.getNextToken.1 ∧ LexSim l.getNextToken.2 m.getNextToken.2 := by
  obtain ⟨h1, h2⟩ := scan_related h
  refine ⟨?_, ?_⟩
  · rw [getNextToken_eq_scan, getNextToken_eq_scan]; exact h1
  · unfold LexSim
    rw [getNextToken_rest, getNextToken_rest]; exact h2

theorem create_sim {l m : Lexer} (h : LexSim l m) :
    PSim (Parser.create l) (Parser.create m) :=
  getNextToken_sim h

theorem eat_sim {p p1 : Parser} (h : PSim p p1) (k : TokenType) :
    PSim (p.eat k) (p1.eat k) := by
  unfold Parser.eat
  rw [← h.1]
  by_cases hk : p.currentToken.type = k
  · simp only [hk, if_true]
    exact getNextToken_sim h.2
  · simp only [hk, if_false]
    exact h

theorem nthToken_sim {l m : Lexer} (h : LexSim l m) (n : Nat) :
    nthToken l n = nthToken m n := by
  unfold nthToken
  induction n generalizing l m with
  | zero => exact (getNextToken_sim h).1
  | succ n ih => exact ih (getNextToken_sim h).2

theorem RSim.outcome_eq {r r1 : ParseResult} (h : RSim r r1) :
    r.outcome = r1.outcome ∧ r.lookahead = r1.lookahead := by
  cases r <;> cases r1 <;> simp [RSim] at h
  · simp [ParseResult.outcome, ParseResult.lookahead, h.1, h.2.1]
  · simp [ParseResult.outcome, ParseResult.lookahead, h]
  · simp [ParseResult.outcome, ParseResult.lookahead]

theorem RSim.bind {r r1 : ParseResult} (h : RSim r r1) (f f1 : ASTNode → Parser → ParseResult)
    (hf : ∀ t p p1, PSim p p1 → RSim (f t p) (f1 t p1)) :
    RSim (r.andThen f) (r1.andThen f1) := by
  cases r <;> cases r1 <;> simp only [RSim, ParseResult.andThen] at h ⊢
  · rw [h.1]; exact hf _ _ _ h.2
  · exact h

theorem factor_succ_eq (n : Nat) (p : Parser) :
    factor (n + 1) p =
      if p.currentToken.type = .OPEN_PAREN then
        (expr n (p.eat .OPEN_PAREN)).andThen
          (fun t p1 => .returned t (p1.eat .CLOSE_PAREN))
      else if p.currentToken.type = .INTEGER then
        match stoi p.currentToken.value with
        | .ok v => .returned (.NumNode v) (p.eat .INTEGER)
        | .error e => .threw e
      else .returned .null p := by
  rw [factor]
  split
  · cases expr n (p.eat .OPEN_PAREN) <;> rfl
  · rfl

theorem termLoop_succ_eq (n : Nat) (t0 : ASTNode) (p : Parser) :
    termLoop (n + 1) t0 p =
      if p.currentToken.type = .MULTIPLY ∨ p.currentToken.type = .DIVIDE then
        (factor n (p.eat p.currentToken.type)).andThen
          (fun t p1 => termLoop n (.BinOpNode p.currentToken.type t0 t) p1)
      else .returned t0 p := by
  rw [termLoop]
  split
  · cases factor n (p.eat p.currentToken.type) <;> rfl
  · rfl

theorem term_succ_eq (n : Nat) (p : Parser) :
    term (n + 1) p =
      (factor n p).andThen (fun t p1 => termLoop n t p1) := by
  rw [term]
  cases factor n p <;> rfl

theorem exprLoop_succ_eq (n : Nat) (t0 : ASTNode) (p : Parser) :
    exprLoop (n + 1) t0 p =
      if p.currentToken.type = .PLUS ∨ p.currentToken.type = .MINUS then
        (term n (p.eat p.currentToken.type)).andThen
          (fun t p1 => exprLoop n (.BinOpNode p.currentToken.type t0 t) p1)
      else .returned t0 p := by
  rw [exprLoop]
  split
  · cases term n (p.eat p.currentToken.type) <;> rfl
  · rfl

theorem expr_succ_eq (n : Nat) (p : Parser) :
    expr (n + 1) p =
      (term n p).andThen (fun t p1 => exprLoop n t p1) := by
  rw [expr]
  cases term n p <;> rfl

/-- The grammar functions cannot tell related parser states apart. -/
theorem parser_sim : ∀ n,
    (∀ p p1, PSim p p1 → RSim (factor n p) (factor n p1)) ∧
    (∀ t0 p p1, PSim p p1 → RSim (termLoop n t0 p) (termLoop n t0 p1)) ∧
    (∀ p p1, PSim p p1 → RSim (term n p) (term n p1)) ∧
    (∀ t0 p p1, PSim p p1 → RSim (exprLoop n t0 p) (exprLoop n t0 p1)) ∧
    (∀ p p1, PSim p p1 → RSim (expr n p) (expr n p1)) := by
  intro n
  induction n with
  | zero => simp [factor, termLoop, term, exprLoop, expr, RSim]
  | succ n ih =>
    obtain ⟨ihF, ihTL, ihT, ihEL, ihE⟩ := ih
    refine ⟨?_, ?_, ?_, ?_, ?_⟩
    · intro p p1 h
      rw [factor_succ_eq, factor_succ_eq, ← h.1]
      by_cases h1 : p.currentToken.type = .OPEN_PAREN
      · simp only [h1, if_true]
        exact RSim.bind (ihE _ _ (eat_sim h .OPEN_PAREN)) _ _
          (fun t q q1 hq => ⟨rfl, eat_sim hq .CLOSE_PAREN⟩)
      · simp only [h1, if_false]
        by_cases h2 : p.currentToken.type = .INTEGER
        · simp only [h2, if_true]
          cases stoi p.currentToken.value with
          | ok v => exact ⟨rfl, eat_sim h .INTEGER⟩
          | error e => exact rfl
        · simp only [h2, if_false]
          exact ⟨rfl, h⟩
    · intro t0 p p1 h
      rw [termLoop_succ_eq, termLoop_succ_eq, ← h.1]
      by_cases h1 : p.currentToken.type = .MULTIPLY ∨ p.currentToken.type = .DIVIDE
      · simp only [h1, if_true]
        exact RSim.bind (ihF _ _ (eat_sim h _)) _ _ (fun t q q1 hq => ihTL _ q q1 hq)
      · simp only [h1, if_false]
        exact ⟨rfl, h⟩
    · intro p p1 h
      rw [term_succ_eq, term_succ_eq]
      exact RSim.bind (ihF _ _ h) _ _ (fun t q q1 hq => ihTL _ q q1 hq)
    · intro t0 p p1 h
      rw [exprLoop_succ_eq, exprLoop_succ_eq, ← h.1]
      by_cases h1 : p.currentToken.type = .PLUS ∨ p.currentToken.type = .MINUS
      · simp only [h1, if_true]
        exact RSim.bind (ihT _ _ (eat_sim h _)) _ _ (fun t q q1 hq => ihEL _ q q1 hq)
      · simp only [h1, if_false]
        exact ⟨rfl, h⟩
    · intro p p1 h
      rw [expr_succ_eq, expr_succ_eq]
      exact RSim.bind (ihT _ _ h) _ _ (fun t q q1 hq => ihEL _ q q1 hq)

/-- Inputs whose texts are related give the same outcome and the same final lookahead. -/
theorem parse_related {a b : List Char} (h : Related a b) : RSim (parse a) (parse b) := by
  have hsim : PSim (stateAt a 0) (stateAt b 0) := create_sim (l := ⟨a, 0⟩) (m := ⟨b, 0⟩) h
  have ha := parse_ne_out_of_fuel a
  have hb := parse_ne_out_of_fuel b
  have ea : parse a = expr (parseFuel a) (stateAt a 0) := rfl
  have eb : parse b = expr (parseFuel b) (stateAt b 0) := rfl
  rw [ea] at ha
  rw [eb] at hb
  have e1 := expr_fuel_le (le_max_left (parseFuel a) (parseFuel b)) _ ha
  have e2 := expr_fuel_le (le_max_right (parseFuel a) (parseFuel b)) _ hb
  rw [ea, eb, ← e1, ← e2]
  exact (parser_sim _).2.2.2.2 _ _ hsim

/-- C10. Whitespace invariance: inserting a whitespace character `w` into an input at any place
that is not between two digits (the start and the end included) leaves every token that the
lexer produces unchanged, and `parse` gives the same tree (or the same exception) and the same
final lookahead for both inputs. -/
theorem whitespace_invariance (pre post : List Char) (w : Char) (hw : isspace w = true)
    (hpos : ∀ c d, pre.getLast? = some c → post.head? = some d →
      ¬(isdigit c = true ∧ isdigit d = true)) :
    (∀ n, nthToken (Lexer.create (pre ++ post)) n =
      nthToken (Lexer.create (pre ++ w :: post)) n) ∧
    (parse (pre ++ post)).outcome = (parse (pre ++ w :: post)).outcome ∧
    (parse (pre ++ post)).lookahead = (parse (pre ++ w :: post)).lookahead := by
  have hins : Ins false (pre ++ post) (pre ++ w :: post) := by
    apply ins_of_split w hw post pre false
    rintro ⟨h1, h2⟩
    rcases lastDigit_getLast? pre false h1 with ⟨-, hf⟩ | ⟨c, hc, hcd⟩
    · exact absurd hf (by simp)
    · obtain ⟨d, hd, hdd⟩ := headDigit_head? h2
      exact hpos c d hc hd ⟨hcd, hdd⟩
  have hrel : Related (pre ++ post) (pre ++ w :: post) := Or.inr hins
  exact ⟨nthToken_sim (l := Lexer.create (pre ++ post)) (m := Lexer.create (pre ++ w :: post)) hrel,
    (parse_related hrel).outcome_eq⟩

theorem whitespace_invariance_witness :
    isspace ' ' = true ∧
    (parse (['1'] ++ ['+', '2'])).outcome = (parse (['1'] ++ ' ' :: ['+', '2'])).outcome ∧
    (parse (['1'] ++ ['+', '2'])).outcome =
      .node (.BinOpNode .PLUS (.NumNode 1) (.NumNode 2)) :=
  ⟨by decide,
   (whitespace_invariance ['1'] ['+', '2'] ' ' (by decide)
    (by intro c d hc hd; simp at hc hd; subst hc hd; decide)).2.1, by decide⟩

/-! ### Claims C11 to C13: what `getNextToken` returns -/

theorem head?_dropWhile_false (p : Char → Bool) :
    ∀ (s : List Char) (d : Char), (s.dropWhile p).head? = some d → p d = false := by
  intro s
  induction s with
  | nil => intro d h; simp at h
  | cons c t ih =>
    intro d h
    by_cases hc : p c = true
    · rw [List.dropWhile_cons, if_pos hc] at h
      exact ih d h
    · rw [List.dropWhile_cons, if_neg hc] at h
      simp only [List.head?_cons, Option.some.injEq] at h
      rw [← h]
      simpa using hc

theorem getElem?_eq_head?_drop (input : List Char) (pos : Nat) :
    input[pos]? = (input.drop pos).head? := by
  rw [List.head?_drop]

theorem takeWhile_isdigit_mem (s : List Char) : ∀ d ∈ s.takeWhile isdigit, isdigit d = true := by
  intro d hd
  exact List.mem_takeWhile_imp hd

theorem scan_blank_digit {ws : List Char} (hws : Blank ws) {c : Char} (hc : isdigit c = true)
    (t : List Char) :
    scan (ws ++ c :: t) =
      ({ type := .INTEGER, value := (c :: t).takeWhile isdigit },
        ws.length + ((c :: t).takeWhile isdigit).length) := by
  rw [scan_spaces hws, scan_digit_head hc]
  simp [List.takeWhile_cons, hc]

/-- C11. Greedy integer lexing: when the first character after optional whitespace at the
cursor is a digit, `getNextToken` returns an `INTEGER` token whose text is the maximal run of
digits starting there (non-empty, digits only), and leaves the cursor right after the run:
what is left is the text after the run, which is empty or starts with a non-digit. -/
theorem getNextToken_integer (l : Lexer) (ws : List Char) (c : Char) (t : List Char)
    (h : l.input.drop l.currentPos = ws ++ c :: t) (hws : Blank ws) (hc : isdigit c = true) :
    l.getNextToken.1 = { type := .INTEGER, value := (c :: t).takeWhile isdigit } ∧
    (c :: t).takeWhile isdigit ≠ [] ∧
    (∀ d ∈ (c :: t).takeWhile isdigit, isdigit d = true) ∧
    l.getNextToken.2 =
      { l with currentPos := l.currentPos + ws.length + ((c :: t).takeWhile isdigit).length } ∧
    l.input.drop l.getNextToken.2.currentPos = (c :: t).dropWhile isdigit ∧
    (c :: t).takeWhile isdigit ++ (c :: t).dropWhile isdigit = c :: t ∧
    (∀ d, l.input[l.getNextToken.2.currentPos]? = some d → isdigit d = false) := by
  have hscan : scan l.rest =
      ({ type := .INTEGER, value := (c :: t).takeWhile isdigit },
        ws.length + ((c :: t).takeWhile isdigit).length) := by
    unfold Lexer.rest
    rw [h]
    exact scan_blank_digit hws hc t
  have hnext := getNextToken_eq_scan l
  rw [hscan] at hnext
  have hpos : l.getNextToken.2.currentPos =
      l.currentPos + ws.length + ((c :: t).takeWhile isdigit).length := by
    rw [hnext]
    simp only []
    omega
  have hdrop : l.input.drop l.getNextToken.2.currentPos = (c :: t).dropWhile isdigit := by
    rw [hpos, ← List.drop_drop, drop_step h, drop_takeWhile_length]
  refine ⟨by rw [hnext], ?_, takeWhile_isdigit_mem _, ?_, hdrop,
    List.takeWhile_append_dropWhile _ _, ?_⟩
  · simp [List.takeWhile_cons, hc]
  · rw [hnext]
    simp only [Nat.add_assoc]
  · intro d hd
    rw [getElem?_eq_head?_drop, hdrop] at hd
    exact head?_dropWhile_false isdigit _ d hd

theorem getNextToken_integer_witness :
    ({ input := ['1', ' ', '4', '2', '+'], currentPos := 1 } : Lexer).input.drop 1 =
      [' '] ++ '4' :: ['2', '+'] ∧
    Blank [' '] ∧ isdigit '4' = true ∧
    ({ input := ['1', ' ', '4', '2', '+'], currentPos := 1 } : Lexer).getNextToken.1 =
      { type := .INTEGER, value := ['4', '2'] } ∧
    ({ input := ['1', ' ', '4', '2', '+'], currentPos := 1 } : Lexer).getNextToken.2 =
      { input := ['1', ' ', '4', '2', '+'], currentPos := 4 } := by
  have h := getNextToken_integer { input := ['1', ' ', '4', '2', '+'], currentPos := 1 }
    [' '] '4' ['2', '+'] rfl (by unfold Blank; decide) (by decide)
  exact ⟨rfl, by unfold Blank; decide, by decide, h.1, h.2.2.2.1⟩

/-- C12, the code at the failing input: on `a1` the first call returns `INVALID` and leaves
the cursor at 0, on the unrecognised character; every later call does the same, so the
digit after it is never scanned. -/
theorem getNextToken_invalid_stalls :
    (Lexer.create ['a', '1']).getNextToken =
      ({ type := .INVALID, value := [] }, { input := ['a', '1'], currentPos := 0 }) ∧
    (Lexer.create ['a', '1']).getNextToken.2.getNextToken =
      ({ type := .INVALID, value := [] }, { input := ['a', '1'], currentPos := 0 }) ∧
    ({ input := [' ', '?', '7'], currentPos := 0 } : Lexer).getNextToken =
      ({ type := .INVALID, value := [] }, { input := [' ', '?', '7'], currentPos := 1 }) := by
  decide

/-- C13. Single-character tokens: when the first character after optional whitespace at the
cursor is one of `+ - * / ( )`, `getNextToken` returns the token of the corresponding kind and
moves the cursor one character beyond the whitespace; the kinds are `PLUS`, `MINUS`,
`MULTIPLY`, `DIVIDE`, `OPEN_PAREN`, `CLOSE_PAREN` in this order. -/
theorem getNextToken_single (l : Lexer) (ws : List Char) (c : Char) (t : List Char)
    (k : TokenType) (h : l.input.drop l.currentPos = ws ++ c :: t) (hws : Blank ws)
    (hk : charKind c = some k) :
    l.getNextToken.1.type = k ∧
    l.getNextToken.2 = { l with currentPos := l.currentPos + ws.length + 1 } ∧
    (charKind '+' = some .PLUS ∧ charKind '-' = some .MINUS ∧ charKind '*' = some .MULTIPLY ∧
     charKind '/' = some .DIVIDE ∧ charKind '(' = some .OPEN_PAREN ∧
     charKind ')' = some .CLOSE_PAREN) := by
  have hscan : scan l.rest = ({ type := k, value := [c] }, ws.length + 1) := by
    unfold Lexer.rest
    rw [h, scan_spaces hws, scan_single hk]
  have hnext := getNextToken_eq_scan l
  rw [hscan] at hnext
  refine ⟨by rw [hnext], ?_, by decide⟩
  rw [hnext]
  simp only [Nat.add_assoc]

theorem getNextToken_single_witness :
    Blank [' ', ' '] ∧ charKind '*' = some .MULTIPLY ∧
    ({ input := ['3', ' ', ' ', '*', '4'], currentPos := 1 } : Lexer).getNextToken.1.type =
      .MULTIPLY ∧
    ({ input := ['3', ' ', ' ', '*', '4'], currentPos := 1 } : Lexer).getNextToken.2 =
      { input := ['3', ' ', ' ', '*', '4'], currentPos := 4 } := by
  have h := getNextToken_single { input := ['3', ' ', ' ', '*', '4'], currentPos := 1 }
    [' ', ' '] '*' ['4'] .MULTIPLY rfl (by unfold Blank; decide) (by decide)
  exact ⟨by unfold Blank; decide, by decide, h.1, h.2.1⟩

/-! ### Claims C14 and C15: token text and the end of the input -/

theorem charKind_cases {c : Char} {k : TokenType} (h : charKind c = some k) :
    (k = .PLUS ∧ c = '+') ∨ (k = .MINUS ∧ c = '-') ∨ (k = .MULTIPLY ∧ c = '*') ∨
    (k = .DIVIDE ∧ c = '/') ∨ (k = .OPEN_PAREN ∧ c = '(') ∨ (k = .CLOSE_PAREN ∧ c = ')') := by
  unfold charKind at h
  split_ifs at h with h1 h2 h3 h4 h5 h6 <;> simp only [Option.some.injEq] at h <;>
    subst h <;> simp [*]

theorem scan_type_cases (s : List Char) :
    (s.dropWhile isspace = [] ∧ (scan s).1 = { type := .END_OF_FILE, value := [] }) ∨
    (∃ c t k, s.dropWhile isspace = c :: t ∧ charKind c = some k ∧
      (scan s).1 = { type := k, value := [c] }) ∨
    (∃ c t, s.dropWhile isspace = c :: t ∧ isdigit c = true ∧
      (scan s).1 = { type := .INTEGER, value := (c :: t).takeWhile isdigit }) ∨
    (∃ c t, s.dropWhile isspace = c :: t ∧ (scan s).1 = { type := .INVALID, value := [] }) := by
  unfold scan
  cases hd : s.dropWhile isspace with
  | nil => exact Or.inl ⟨rfl, rfl⟩
  | cons c t =>
    right
    simp only []
    cases hk : charKind c with
    | some k => exact Or.inl ⟨c, t, k, rfl, hk, rfl⟩
    | none =>
      right
      simp only []
      by_cases hc : isdigit c = true
      · left
        refine ⟨c, t, rfl, hc, ?_⟩
        simp only [hc, if_true]
      · right
        refine ⟨c, t, rfl, ?_⟩
        simp only [hc]
        rfl

/-- C14 (as amended). Token text: the text of every token that `getNextToken` returns is the
single character of the token when its kind is an operator or a parenthesis, is empty when
its kind is `END_OF_FILE` or `INVALID`, and is the literal digit sequence (non-empty, digits
only, the run found after the whitespace at the cursor) when its kind is `INTEGER`. -/
theorem token_text (l : Lexer) :
    (l.getNextToken.1.type = .PLUS → l.getNextToken.1.value = ['+']) ∧
    (l.getNextToken.1.type = .MINUS → l.getNextToken.1.value = ['-']) ∧
    (l.getNextToken.1.type = .MULTIPLY → l.getNextToken.1.value = ['*']) ∧
    (l.getNextToken.1.type = .DIVIDE → l.getNextToken.1.value = ['/']) ∧
    (l.getNextToken.1.type = .OPEN_PAREN → l.getNextToken.1.value = ['(']) ∧
    (l.getNextToken.1.type = .CLOSE_PAREN → l.getNextToken.1.value = [')']) ∧
    (l.getNextToken.1.type = .END_OF_FILE → l.getNextToken.1.value = []) ∧
    (l.getNextToken.1.type = .INVALID → l.getNextToken.1.value = []) ∧
    (l.getNextToken.1.type = .INTEGER →
      l.getNextToken.1.value ≠ [] ∧ (∀ d ∈ l.getNextToken.1.value, isdigit d = true) ∧
      l.getNextToken.1.value =
        ((l.input.drop l.currentPos).dropWhile isspace).takeWhile isdigit) := by
  have hnext : l.getNextToken.1 = (scan l.rest).1 := by rw [getNextToken_eq_scan]
  rw [hnext]
  rcases scan_type_cases l.rest with ⟨_, h⟩ | ⟨c, t, k, _, hk, h⟩ | ⟨c, t, hd, hc, h⟩ | ⟨c, t, _, h⟩
  · rw [h]; simp
  · rw [h]
    rcases charKind_cases hk with ⟨h1, h2⟩ | ⟨h1, h2⟩ | ⟨h1, h2⟩ | ⟨h1, h2⟩ | ⟨h1, h2⟩ | ⟨h1, h2⟩ <;>
      subst h1 <;> subst h2 <;> simp
  · rw [h]
    have hd1 : (List.drop l.currentPos l.input).dropWhile isspace = c :: t := hd
    simp only [hd1, List.takeWhile_cons, hc, if_true]
    refine ⟨by simp, by simp, by simp, by simp, by simp, by simp, by simp, by simp, ?_⟩
    intro _
    refine ⟨by simp, ?_, by simp⟩
    intro d hd2
    rcases List.mem_cons.mp hd2 with h3 | h3
    · rw [h3]; exact hc
    · exact takeWhile_isdigit_mem t d h3
  · rw [h]; simp

theorem token_text_witness :
    (Lexer.create ['(', '7']).getNextToken.1.type = .OPEN_PAREN ∧
    (Lexer.create ['(', '7']).getNextToken.1.value = ['('] :=
  ⟨by decide, (token_text (Lexer.create ['(', '7'])).2.2.2.2.1 (by decide)⟩

/-- C14, counterexample: the token returned for `+` has kind `PLUS` and the text `+`, not the
empty text; likewise `)` for `CLOSE_PAREN`. -/
theorem token_text_counterexample :
    (Lexer.create ['+']).getNextToken.1 = { type := .PLUS, value := ['+'] } ∧
    (Lexer.create ['+']).getNextToken.1.value ≠ [] ∧
    (Lexer.create [')']).getNextToken.1 = { type := .CLOSE_PAREN, value := [')'] } := by
  decide

theorem blank_iff_dropWhile (s : List Char) : Blank s ↔ s.dropWhile isspace = [] := by
  unfold Blank
  rw [List.dropWhile_eq_nil_iff]

theorem scan_eof_iff (s : List Char) : (scan s).1.type = .END_OF_FILE ↔ Blank s := by
  rw [blank_iff_dropWhile]
  rcases scan_type_cases s with ⟨hd, h⟩ | ⟨c, t, k, hd, hk, h⟩ | ⟨c, t, hd, hc, h⟩ | ⟨c, t, hd, h⟩
  · rw [h]; simp [hd]
  · rw [h, hd]
    rcases charKind_cases hk with ⟨h1, _⟩ | ⟨h1, _⟩ | ⟨h1, _⟩ | ⟨h1, _⟩ | ⟨h1, _⟩ | ⟨h1, _⟩ <;>
      subst h1 <;> simp
  · rw [h, hd]; simp
  · rw [h, hd]; simp

theorem scan_blank {s : List Char} (h : Blank s) :
    scan s = ({ type := .END_OF_FILE, value := [] }, s.length) := by
  have := scan_spaces h []
  rw [List.append_nil, scan_nil] at this
  rw [this]
  rfl

theorem getNextToken_of_rest_nil {m : Lexer} (h : m.rest = []) :
    m.getNextToken = ({ type := .END_OF_FILE, value := [] }, m) := by
  rw [getNextToken_eq_scan, h, scan_nil]
  rfl

theorem lexerAfter_of_rest_nil {m : Lexer} (h : m.rest = []) : ∀ n, lexerAfter n m = m := by
  intro n
  induction n with
  | zero => rfl
  | succ n ih =>
    rw [lexerAfter, getNextToken_of_rest_nil h]
    exact ih

/-- C15. `END_OF_FILE` is idempotent: once `getNextToken` has returned `END_OF_FILE` (which
then has empty text), every later call returns `END_OF_FILE` with empty text and leaves the
lexer, in particular the cursor, unchanged; and `getNextToken` returns `END_OF_FILE` exactly
when only whitespace is left at and after the cursor. -/
theorem eof_idempotent (l : Lexer) (h : l.getNextToken.1.type = .END_OF_FILE) :
    l.getNextToken.1 = { type := .END_OF_FILE, value := [] } ∧
    (∀ n, nthToken l.getNextToken.2 n = { type := .END_OF_FILE, value := [] } ∧
      lexerAfter (n + 1) l.getNextToken.2 = l.getNextToken.2) ∧
    (∀ m : Lexer, m.getNextToken.1.type = .END_OF_FILE ↔ Blank (m.input.drop m.currentPos)) := by
  have hiff : ∀ m : Lexer, m.getNextToken.1.type = .END_OF_FILE ↔
      Blank (m.input.drop m.currentPos) := by
    intro m
    rw [getNextToken_eq_scan]
    exact scan_eof_iff m.rest
  have hb : Blank l.rest := (hiff l).mp h
  have hrest : l.getNextToken.2.rest = [] := by
    rw [getNextToken_rest, scan_blank hb]
    simp
  refine ⟨?_, ?_, hiff⟩
  · rw [getNextToken_eq_scan, scan_blank hb]
  · intro n
    constructor
    · unfold nthToken
      rw [lexerAfter_of_rest_nil hrest, getNextToken_of_rest_nil hrest]
    · exact lexerAfter_of_rest_nil hrest (n + 1)

theorem eof_idempotent_witness :
    ({ input := ['1', ' ', ' '], currentPos := 1 } : Lexer).getNextToken.1.type =
      .END_OF_FILE ∧
    ({ input := ['1', ' ', ' '], currentPos := 1 } : Lexer).getNextToken.2 =
      { input := ['1', ' ', ' '], currentPos := 3 } ∧
    nthToken ({ input := ['1', ' ', ' '], currentPos := 1 } : Lexer).getNextToken.2 5 =
      { type := .END_OF_FILE, value := [] } :=
  ⟨by decide, by decide,
   ((eof_idempotent { input := ['1', ' ', ' '], currentPos := 1 } (by decide)).2.1 5).1⟩

/-! ### Claims C16 and C18: `eat` and the lexer cursor -/

theorem eats_nil (p : Parser) : eats p [] = p := rfl

theorem eats_cons (p : Parser) (k : TokenType) (ks : List TokenType) :
    eats p (k :: ks) = eats (p.eat k) ks := rfl

theorem eats_append (p : Parser) (ks1 ks2 : List TokenType) :
    eats p (ks1 ++ ks2) = eats (eats p ks1) ks2 := by
  unfold eats
  rw [List.foldl_append]

/-- Every grammar function leaves the parser in a state that a sequence of calls of `eat`
produces from the state it started in. -/
theorem state_by_eats : ∀ n,
    (∀ p t p1, factor n p = .returned t p1 → ∃ ks, p1 = eats p ks) ∧
    (∀ t0 p t p1, termLoop n t0 p = .returned t p1 → ∃ ks, p1 = eats p ks) ∧
    (∀ p t p1, term n p = .returned t p1 → ∃ ks, p1 = eats p ks) ∧
    (∀ t0 p t p1, exprLoop n t0 p = .returned t p1 → ∃ ks, p1 = eats p ks) ∧
    (∀ p t p1, expr n p = .returned t p1 → ∃ ks, p1 = eats p ks) := by
  intro n
  induction n with
  | zero => simp [factor, termLoop, term, exprLoop, expr]
  | succ n ih =>
    obtain ⟨ihF, ihTL, ihT, ihEL, ihE⟩ := ih
    refine ⟨?_, ?_, ?_, ?_, ?_⟩
    · intro p t p1 h
      rw [factor_succ_eq] at h
      by_cases h1 : p.currentToken.type = .OPEN_PAREN
      · simp only [h1, if_true] at h
        cases he : expr n (p.eat .OPEN_PAREN) with
        | returned t2 p2 =>
          rw [he] at h
          simp only [ParseResult.andThen, ParseResult.returned.injEq] at h
          obtain ⟨ks, hks⟩ := ihE _ _ _ he
          refine ⟨.OPEN_PAREN :: (ks ++ [.CLOSE_PAREN]), ?_⟩
          rw [eats_cons, eats_append, ← hks, ← h.2]
          rfl
        | threw e => rw [he] at h; simp [ParseResult.andThen] at h
        | out_of_fuel => rw [he] at h; simp [ParseResult.andThen] at h
      · simp only [h1, if_false] at h
        by_cases h2 : p.currentToken.type = .INTEGER
        · simp only [h2, if_true] at h
          cases hs : stoi p.currentToken.value with
          | ok v =>
            rw [hs] at h
            simp only [ParseResult.returned.injEq] at h
            exact ⟨[.INTEGER], by rw [← h.2]; rfl⟩
          | error e => rw [hs] at h; simp at h
        · simp only [h2, if_false, ParseResult.returned.injEq] at h
          exact ⟨[], by rw [← h.2]; rfl⟩
    · intro t0 p t p1 h
      rw [termLoop_succ_eq] at h
      by_cases h1 : p.currentToken.type = .MULTIPLY ∨ p.currentToken.type = .DIVIDE
      · simp only [h1, if_true] at h
        cases he : factor n (p.eat p.currentToken.type) with
        | returned t2 p2 =>
          rw [he] at h
          simp only [ParseResult.andThen] at h
          obtain ⟨ks1, hks1⟩ := ihF _ _ _ he
          obtain ⟨ks2, hks2⟩ := ihTL _ _ _ _ h
          exact ⟨p.currentToken.type :: (ks1 ++ ks2),
            by rw [eats_cons, eats_append, ← hks1, ← hks2]⟩
        | threw e => rw [he] at h; simp [ParseResult.andThen] at h
        | out_of_fuel => rw [he] at h; simp [ParseResult.andThen] at h
      · simp only [h1, if_false, ParseResult.returned.injEq] at h
        exact ⟨[], by rw [← h.2]; rfl⟩
    · intro p t p1 h
      rw [term_succ_eq] at h
      cases he : factor n p with
      | returned t2 p2 =>
        rw [he] at h
        simp only [ParseResult.andThen] at h
        obtain ⟨ks1, hks1⟩ := ihF _ _ _ he
        obtain ⟨ks2, hks2⟩ := ihTL _ _ _ _ h
        exact ⟨ks1 ++ ks2, by rw [eats_append, ← hks1, ← hks2]⟩
      | threw e => rw [he] at h; simp [ParseResult.andThen] at h
      | out_of_fuel => rw [he] at h; simp [ParseResult.andThen] at h
    · intro t0 p t p1 h
      rw [exprLoop_succ_eq] at h
      by_cases h1 : p.currentToken.type = .PLUS ∨ p.currentToken.type = .MINUS
      · simp only [h1, if_true] at h
        cases he : term n (p.eat p.currentToken.type) with
        | returned t2 p2 =>
          rw [he] at h
          simp only [ParseResult.andThen] at h
          obtain ⟨ks1, hks1⟩ := ihT _ _ _ he
          obtain ⟨ks2, hks2⟩ := ihEL _ _ _ _ h
          exact ⟨p.currentToken.type :: (ks1 ++ ks2),
            by rw [eats_cons, eats_append, ← hks1, ← hks2]⟩
        | threw e => rw [he] at h; simp [ParseResult.andThen] at h
        | out_of_fuel => rw [he] at h; simp [ParseResult.andThen] at h
      · simp only [h1, if_false, ParseResult.returned.injEq] at h
        exact ⟨[], by rw [← h.2]; rfl⟩
    · intro p t p1 h
      rw [expr_succ_eq] at h
      cases he : term n p with
      | returned t2 p2 =>
        rw [he] at h
        simp only [ParseResult.andThen] at h
        obtain ⟨ks1, hks1⟩ := ihT _ _ _ he
        obtain ⟨ks2, hks2⟩ := ihEL _ _ _ _ h
        exact ⟨ks1 ++ ks2, by rw [eats_append, ← hks1, ← hks2]⟩
      | threw e => rw [he] at h; simp [ParseResult.andThen] at h
      | out_of_fuel => rw [he] at h; simp [ParseResult.andThen] at h

/-- C16. `eat` advances only on a match: if the kind of `currentToken` differs from `k`,
`eat k` leaves the whole parser state (lookahead and lexer cursor) unchanged and signals
nothing; if it equals `k`, `eat k` replaces `currentToken` by the token the lexer returns
next (and the lexer by the lexer after that call).  Nothing else changes `currentToken`: the
state in which `factor`, `term`, `expr` and `parse` leave the parser is the result of a
sequence of calls of `eat` on the state they started in. -/
theorem eat_only_on_match (p : Parser) (k : TokenType) :
    (p.currentToken.type ≠ k → p.eat k = p) ∧
    (p.currentToken.type = k →
      p.eat k = { lexer := p.lexer.getNextToken.2, currentToken := p.lexer.getNextToken.1 }) ∧
    (∀ n t p1, factor n p = .returned t p1 → ∃ ks, p1 = eats p ks) ∧
    (∀ n t p1, term n p = .returned t p1 → ∃ ks, p1 = eats p ks) ∧
    (∀ n t p1, expr n p = .returned t p1 → ∃ ks, p1 = eats p ks) ∧
    (∀ input t p1, parse input = .returned t p1 →
      ∃ ks, p1 = eats (Parser.create (Lexer.create input)) ks) := by
  refine ⟨?_, ?_, ?_, ?_, ?_, ?_⟩
  · intro h
    unfold Parser.eat
    simp [h]
  · intro h
    unfold Parser.eat
    simp [h]
  · intro n t p1 h
    exact (state_by_eats n).1 p t p1 h
  · intro n t p1 h
    exact (state_by_eats n).2.2.1 p t p1 h
  · intro n t p1 h
    exact (state_by_eats n).2.2.2.2 p t p1 h
  · intro input t p1 h
    exact (state_by_eats _).2.2.2.2 _ t p1 h

theorem eat_only_on_match_witness :
    (Parser.create (Lexer.create ['1', '+'])).currentToken.type ≠ .PLUS ∧
    (Parser.create (Lexer.create ['1', '+'])).eat .PLUS =
      Parser.create (Lexer.create ['1', '+']) ∧
    ((Parser.create (Lexer.create ['1', '+'])).eat .INTEGER).currentToken =
      { type := .PLUS, value := ['+'] } := by
  have h := eat_only_on_match (Parser.create (Lexer.create ['1', '+'])) .PLUS
  have h2 := eat_only_on_match (Parser.create (Lexer.create ['1', '+'])) .INTEGER
  refine ⟨by decide, h.1 (by decide), ?_⟩
  rw [h2.2.1 (by decide)]
  decide

theorem lexerAfter_succ (n : Nat) : ∀ l : Lexer,
    lexerAfter (n + 1) l = (lexerAfter n l).getNextToken.2 := by
  induction n with
  | zero => intro l; rfl
  | succ n ih =>
    intro l
    rw [lexerAfter, ih l.getNextToken.2]
    rfl

theorem getNextToken_cursor (l : Lexer) :
    l.getNextToken.2.input = l.input ∧
    l.currentPos ≤ l.getNextToken.2.currentPos ∧
    (l.currentPos ≤ l.input.length → l.getNextToken.2.currentPos ≤ l.input.length) := by
  rw [getNextToken_eq_scan]
  have hle := scan_le l.rest
  unfold Lexer.rest at hle
  rw [List.length_drop] at hle
  refine ⟨rfl, Nat.le_add_right _ _, ?_⟩
  intro h
  unfold Lexer.rest
  simp only
  omega

theorem lexerAfter_inv (input : List Char) : ∀ n,
    (lexerAfter n (Lexer.create input)).input = input ∧
    (lexerAfter n (Lexer.create input)).currentPos ≤ input.length := by
  intro n
  induction n with
  | zero => exact ⟨rfl, Nat.zero_le _⟩
  | succ n ih =>
    rw [lexerAfter_succ]
    obtain ⟨h1, h2, h3⟩ := getNextToken_cursor (lexerAfter n (Lexer.create input))
    rw [ih.1] at h1 h3
    exact ⟨h1, h3 ih.2⟩

/-- C18. Lexer cursor invariant: the cursor starts at 0; every call of `getNextToken`, after
any number of earlier calls, leaves the input as it is and the cursor at least where it was
and at most at the input length; `skipWhitespace`, `createToken` and `getNumber` never move
the cursor back either. -/
theorem cursor_invariant (input : List Char) (n : Nat) :
    (Lexer.create input).currentPos = 0 ∧
    (lexerAfter n (Lexer.create input)).currentPos ≤
      (lexerAfter (n + 1) (Lexer.create input)).currentPos ∧
    (lexerAfter (n + 1) (Lexer.create input)).currentPos ≤ input.length ∧
    (lexerAfter (n + 1) (Lexer.create input)).input = input ∧
    (∀ l : Lexer, l.currentPos ≤ l.getNextToken.2.currentPos ∧
      l.currentPos ≤ l.skipWhitespace.currentPos ∧
      (∀ k, l.currentPos ≤ (l.createToken k).2.currentPos) ∧
      l.currentPos ≤ l.getNumber.2.currentPos) := by
  refine ⟨rfl, ?_, (lexerAfter_inv input (n + 1)).2, (lexerAfter_inv input (n + 1)).1, ?_⟩
  · rw [lexerAfter_succ]
    exact (getNextToken_cursor _).2.1
  · intro l
    refine ⟨(getNextToken_cursor l).2.1, ?_, ?_, ?_⟩
    · rw [skipWhitespace_eq]
      exact Nat.le_add_right _ _
    · intro k
      exact Nat.le_succ _
    · unfold Lexer.getNumber
      rw [getNumberLoop_eq _ _ _ _ (le_refl _)]
      exact Nat.le_add_right _ _

/-! ### Claim C17: termination -/

/-- C17 (as amended). The parser terminates on every input: `parse` returns a node or `std::stoi`
throws, and every larger recursion budget gives the same result.  The reason is a measure,
twice the number of characters left plus one for a lookahead other than `END_OF_FILE` and
`INVALID`: every `eat` that matches such a lookahead (the one before each loop iteration of
`expr` and `term`, and before `factor` enters `expr`) strictly decreases it, and no `eat`
increases it, match or mismatch. -/
theorem parse_terminates (input : List Char) :
    ((∃ t st, parse input = .returned t st) ∨ (∃ e, parse input = .threw e)) ∧
    (∀ n, parseFuel input ≤ n →
      expr n (Parser.create (Lexer.create input)) = parse input) ∧
    (∀ p : Parser, p.currentToken.type.consuming = true →
      (p.eat p.currentToken.type).measure < p.measure) ∧
    (∀ (p : Parser) (k : TokenType), k.consuming = true → (p.eat k).measure ≤ p.measure) ∧
    (∀ p : Parser, p.currentToken.type = .OPEN_PAREN ∨ p.currentToken.type = .PLUS ∨
      p.currentToken.type = .MINUS ∨ p.currentToken.type = .MULTIPLY ∨
      p.currentToken.type = .DIVIDE → p.currentToken.type.consuming = true) := by
  have hne := parse_ne_out_of_fuel input
  refine ⟨?_, ?_, measure_eat_lt, measure_eat_le, ?_⟩
  · cases h : parse input with
    | returned t st => exact Or.inl ⟨t, st, rfl⟩
    | threw e => exact Or.inr ⟨e, rfl⟩
    | out_of_fuel => exact absurd h hne
  · intro n hn
    exact expr_fuel_le hn _ hne
  · intro p h
    rcases h with h | h | h | h | h <;> rw [h] <;> decide

/-- C17, counterexample to the stated reason: on `1+` the loop of `expr` is entered with the
lookahead `+` and the cursor at 2; the `eat` that matches `+` pulls `END_OF_FILE` and leaves
the cursor at 2, so it does not advance the lexer cursor (the parse still ends, with a
`BinOpNode` whose right child is missing). -/
theorem eat_cursor_counterexample :
    ((Parser.create (Lexer.create ['1', '+'])).eat .INTEGER).currentToken.type = .PLUS ∧
    ((Parser.create (Lexer.create ['1', '+'])).eat .INTEGER).lexer.currentPos = 2 ∧
    (((Parser.create (Lexer.create ['1', '+'])).eat .INTEGER).eat .PLUS).lexer.currentPos = 2 ∧
    (((Parser.create (Lexer.create ['1', '+'])).eat .INTEGER).eat .PLUS).currentToken.type =
      .END_OF_FILE := by
  decide

/-! ### Claim C19: parentheses leave no trace -/

theorem rsimBy_andThen {R : Parser → Parser → Prop} {r r1 : ParseResult} (h : RSimBy R r r1)
    (f f1 : ASTNode → Parser → ParseResult)
    (hf : ∀ t p p1, R p p1 → RSimBy R (f t p) (f1 t p1)) :
    RSimBy R (r.andThen f) (r1.andThen f1) := by
  cases r <;> cases r1 <;> simp only [RSimBy, ParseResult.andThen] at h ⊢
  · rw [h.1]; exact hf _ _ _ h.2
  · exact h

/-- The grammar functions cannot tell apart two parser states related by `R`, when related
states have the same lookahead as soon as one of the lookaheads is active, and `eat` keeps
states related. -/
theorem parser_sim_by (R : Parser → Parser → Prop)
    (hdec : ∀ p q, R p q →
      p.currentToken.type.active = true ∨ q.currentToken.type.active = true →
      p.currentToken = q.currentToken)
    (heat : ∀ p q k, R p q → k.consuming = true → R (p.eat k) (q.eat k)) : ∀ n,
    (∀ p q, R p q → RSimBy R (factor n p) (factor n q)) ∧
    (∀ t0 p q, R p q → RSimBy R (termLoop n t0 p) (termLoop n t0 q)) ∧
    (∀ p q, R p q → RSimBy R (term n p) (term n q)) ∧
    (∀ t0 p q, R p q → RSimBy R (exprLoop n t0 p) (exprLoop n t0 q)) ∧
    (∀ p q, R p q → RSimBy R (expr n p) (expr n q)) := by
  have hkind : ∀ p q, R p q → ∀ k : TokenType, k.active = true →
      (p.currentToken.type = k ↔ q.currentToken.type = k) := by
    intro p q h k hk
    constructor
    · intro hp
      rw [← hdec p q h (Or.inl (by rw [hp]; exact hk))]; exact hp
    · intro hq
      rw [hdec p q h (Or.inr (by rw [hq]; exact hk))]; exact hq
  intro n
  induction n with
  | zero => simp [factor, termLoop, term, exprLoop, expr, RSimBy]
  | succ n ih =>
    obtain ⟨ihF, ihTL, ihT, ihEL, ihE⟩ := ih
    refine ⟨?_, ?_, ?_, ?_, ?_⟩
    · intro p q h
      rw [factor_succ_eq, factor_succ_eq]
      by_cases h1 : p.currentToken.type = .OPEN_PAREN
      · have h1q := (hkind p q h _ (by decide)).mp h1
        simp only [h1, h1q, if_true]
        exact rsimBy_andThen (ihE _ _ (heat _ _ _ h (by decide))) _ _
          (fun t a b hab => ⟨rfl, heat _ _ _ hab (by decide)⟩)
      · have h1q : ¬ q.currentToken.type = .OPEN_PAREN :=
          fun hq => h1 ((hkind p q h _ (by decide)).mpr hq)
        simp only [h1, h1q, if_false]
        by_cases h2 : p.currentToken.type = .INTEGER
        · have h2q := (hkind p q h _ (by decide)).mp h2
          have htok := hdec p q h (Or.inl (by rw [h2]; decide))
          simp only [h2, h2q, if_true, ← htok]
          cases stoi p.currentToken.value with
          | ok v => exact ⟨rfl, heat _ _ _ h (by decide)⟩
          | error e => exact rfl
        · have h2q : ¬ q.currentToken.type = .INTEGER :=
            fun hq => h2 ((hkind p q h _ (by decide)).mpr hq)
          simp only [h2, h2q, if_false]
          exact ⟨rfl, h⟩
    · intro t0 p q h
      rw [termLoop_succ_eq, termLoop_succ_eq]
      by_cases h1 : p.currentToken.type = .MULTIPLY ∨ p.currentToken.type = .DIVIDE
      · have hact : p.currentToken.type.active = true := by
          rcases h1 with h1 | h1 <;> rw [h1] <;> decide
        have hcon : p.currentToken.type.consuming = true := by
          rcases h1 with h1 | h1 <;> rw [h1] <;> decide
        have htok := hdec p q h (Or.inl hact)
        rw [← htok]
        simp only [h1, if_true]
        exact rsimBy_andThen (ihF _ _ (heat _ _ _ h hcon)) _ _ (fun t a b hab => ihTL _ a b hab)
      · have h1q : ¬(q.currentToken.type = .MULTIPLY ∨ q.currentToken.type = .DIVIDE) := by
          rintro (hq | hq)
          · exact h1 (Or.inl ((hkind p q h _ (by decide)).mpr hq))
          · exact h1 (Or.inr ((hkind p q h _ (by decide)).mpr hq))
        simp only [h1, h1q, if_false]
        exact ⟨rfl, h⟩
    · intro p q h
      rw [term_succ_eq, term_succ_eq]
      exact rsimBy_andThen (ihF _ _ h) _ _ (fun t a b hab => ihTL _ a b hab)
    · intro t0 p q h
      rw [exprLoop_succ_eq, exprLoop_succ_eq]
      by_cases h1 : p.currentToken.type = .PLUS ∨ p.currentToken.type = .MINUS
      · have hact : p.currentToken.type.active = true := by
          rcases h1 with h1 | h1 <;> rw [h1] <;> decide
        have hcon : p.currentToken.type.consuming = true := by
          rcases h1 with h1 | h1 <;> rw [h1] <;> decide
        have htok := hdec p q h (Or.inl hact)
        rw [← htok]
        simp only [h1, if_true]
        exact rsimBy_andThen (ihT _ _ (heat _ _ _ h hcon)) _ _ (fun t a b hab => ihEL _ a b hab)
      · have h1q : ¬(q.currentToken.type = .PLUS ∨ q.currentToken.type = .MINUS) := by
          rintro (hq | hq)
          · exact h1 (Or.inl ((hkind p q h _ (by decide)).mpr hq))
          · exact h1 (Or.inr ((hkind p q h _ (by decide)).mpr hq))
        simp only [h1, h1q, if_false]
        exact ⟨rfl, h⟩
    · intro p q h
      rw [expr_succ_eq, expr_succ_eq]
      exact rsimBy_andThen (ihT _ _ h) _ _ (fun t a b hab => ihEL _ a b hab)

theorem takeWhile_append_stop (p : Char → Bool) (x : Char) (hx : p x = false) :
    ∀ t : List Char, (t ++ [x]).takeWhile p = t.takeWhile p := by
  intro t
  induction t with
  | nil => simp [List.takeWhile_cons, hx]
  | cons c t ih =>
    by_cases hc : p c = true
    · simp only [List.cons_append, List.takeWhile_cons, hc, if_true, ih]
    · simp [List.takeWhile_cons, hc]

theorem scan_cons_append_paren (c : Char) (hc : isspace c = false) (t : List Char) :
    scan (c :: (t ++ [')'])) = scan (c :: t) := by
  cases hk : charKind c with
  | some k => rw [scan_single hk, scan_single hk]
  | none =>
    by_cases hd : isdigit c = true
    · rw [scan_digit_head hd, scan_digit_head hd,
        takeWhile_append_stop isdigit ')' (by decide)]
    · have hd1 : isdigit c = false := by simpa using hd
      rw [scan_invalid hc hk hd1, scan_invalid hc hk hd1]

theorem scan_append_paren {s : List Char} (h : ¬ Blank s) : scan (s ++ [')']) = scan s := by
  have hsplit := List.takeWhile_append_dropWhile isspace s
  have hws : Blank (s.takeWhile isspace) := fun c hc => List.mem_takeWhile_imp hc
  cases hd : s.dropWhile isspace with
  | nil => exact absurd ((blank_iff_dropWhile s).mpr hd) h
  | cons c t =>
    have hc : isspace c = false := by
      have := head?_dropWhile_false isspace s c (by rw [hd]; rfl)
      exact this
    rw [hd] at hsplit
    rw [← hsplit, List.append_assoc, scan_spaces hws, scan_spaces hws, List.cons_append,
      scan_cons_append_paren c hc t]

theorem create_parenRel {l m : Lexer} (h : m.rest = l.rest ++ [')']) :
    ParenRel (Parser.create l) (Parser.create m) := by
  have hl := getNextToken_eq_scan l
  have hm := getNextToken_eq_scan m
  have hlr := getNextToken_rest l
  have hmr := getNextToken_rest m
  unfold Parser.create
  by_cases hb : Blank l.rest
  · right; left
    have hs1 := scan_blank hb
    have hs2 : scan m.rest = ({ type := .CLOSE_PAREN, value := [')'] }, l.rest.length + 1) := by
      rw [h, scan_spaces hb, scan_single (k := .CLOSE_PAREN) (by decide)]
    rw [hs2, h] at hmr
    refine ⟨?_, ?_, ?_⟩
    · simp only [hl, hs1]
    · simp only [hm, hs2]
    · simp only [hmr]
      simp
  · left
    have hs : scan m.rest = scan l.rest := by rw [h]; exact scan_append_paren hb
    refine ⟨?_, ?_, ?_⟩
    · simp only [hl, hm, hs]
    · simp only [hl]
      intro he
      exact hb ((scan_eof_iff l.rest).mp he)
    · rw [hmr, hlr, hs, h]
      exact List.drop_append_of_le_length (scan_le l.rest)

theorem eat_of_type {p : Parser} {k : TokenType} (h : p.currentToken.type = k) :
    p.eat k = Parser.create p.lexer := by
  unfold Parser.eat Parser.create
  simp [h]

theorem eat_of_ne {p : Parser} {k : TokenType} (h : p.currentToken.type ≠ k) :
    p.eat k = p := by
  unfold Parser.eat
  simp [h]

theorem create_of_rest_nil {m : Lexer} (h : m.rest = []) :
    Parser.create m = { lexer := m, currentToken := { type := .END_OF_FILE, value := [] } } := by
  unfold Parser.create
  rw [getNextToken_of_rest_nil h]

theorem parenRel_eat (p q : Parser) (k : TokenType) (h : ParenRel p q)
    (hk : k.consuming = true) : ParenRel (p.eat k) (q.eat k) := by
  rcases h with ⟨htok, hne, hrest⟩ | ⟨hp, hq, hrest⟩ | ⟨hp, hq⟩
  · by_cases hm : p.currentToken.type = k
    · rw [eat_of_type hm, eat_of_type (by rw [← htok]; exact hm)]
      exact create_parenRel hrest
    · rw [eat_of_ne hm, eat_of_ne (by rw [← htok]; exact hm)]
      exact Or.inl ⟨htok, hne, hrest⟩
  · have hpk : p.currentToken.type ≠ k := by
      rw [hp]; intro he; rw [← he] at hk; exact absurd hk (by decide)
    rw [eat_of_ne hpk]
    by_cases hm : q.currentToken.type = k
    · rw [eat_of_type hm, create_of_rest_nil hrest]
      exact Or.inr (Or.inr ⟨hp, rfl⟩)
    · rw [eat_of_ne hm]
      exact Or.inr (Or.inl ⟨hp, hq, hrest⟩)
  · have hpk : p.currentToken.type ≠ k := by
      rw [hp]; intro he; rw [← he] at hk; exact absurd hk (by decide)
    have hqk : q.currentToken.type ≠ k := by
      rw [hq]; intro he; rw [← he] at hk; exact absurd hk (by decide)
    rw [eat_of_ne hpk, eat_of_ne hqk]
    exact Or.inr (Or.inr ⟨hp, hq⟩)

theorem parenRel_token (p q : Parser) (h : ParenRel p q)
    (ha : p.currentToken.type.active = true ∨ q.currentToken.type.active = true) :
    p.currentToken = q.currentToken := by
  rcases h with ⟨htok, _, _⟩ | ⟨hp, hq, _⟩ | ⟨hp, hq⟩
  · exact htok
  · rw [hp, hq] at ha
    rcases ha with ha | ha <;> exact absurd ha (by decide)
  · rw [hp, hq] at ha
    rcases ha with ha | ha <;> exact absurd ha (by decide)

/-- C19. Parentheses leave no trace in the tree: whenever `parse` on an input `s` returns a
node `t` (present or not) with the lookahead at `END_OF_FILE`, `parse` on `(` `s` `)` returns
the same `t`, again with the lookahead at `END_OF_FILE`; no constructor of the tree records a
parenthesis. -/
theorem parens_leave_no_trace (s : List Char) (t : ASTNode) (st : Parser)
    (h : parse s = .returned t st) (heof : st.currentToken.type = .END_OF_FILE) :
    ∃ st1, parse ('(' :: (s ++ [')'])) = .returned t st1 ∧
      st1.currentToken.type = .END_OF_FILE := by
  have d0 : ('(' :: (s ++ [')'])).drop 0 = '(' :: (s ++ [')']) := rfl
  have hopen := stateAt_single d0 (k := .OPEN_PAREN) (by decide)
  have hrel : ParenRel (stateAt s 0) (stateAt ('(' :: (s ++ [')'])) (0 + 1)) :=
    create_parenRel (l := ⟨s, 0⟩) (m := ⟨'(' :: (s ++ [')']), 0 + 1⟩) rfl
  have hne : expr (parseFuel s) (stateAt s 0) ≠ .out_of_fuel := parse_ne_out_of_fuel s
  have hps : parse s = expr (parseFuel s) (stateAt s 0) := rfl
  have hsim := (parser_sim_by ParenRel parenRel_token parenRel_eat (parseFuel s)).2.2.2.2
    _ _ hrel
  rw [← hps, h] at hsim
  cases hq : expr (parseFuel s) (stateAt ('(' :: (s ++ [')'])) (0 + 1)) with
  | returned t1 q1 =>
    rw [hq] at hsim
    obtain ⟨ht, hr⟩ := hsim
    subst ht
    have hend : (q1.eat .CLOSE_PAREN).currentToken.type = .END_OF_FILE := by
      rcases hr with ⟨_, hne1, _⟩ | ⟨_, hq1, hrest⟩ | ⟨_, hq1⟩
      · exact absurd heof hne1
      · rw [eat_of_type hq1, create_of_rest_nil hrest]
      · rw [eat_of_ne (by rw [hq1]; decide)]; exact hq1
    refine ⟨q1.eat .CLOSE_PAREN, ?_, hend⟩
    apply parse_eq_of_runs
    rw [hopen]
    have hinner : Runs
        (fun n => expr n
          (Parser.eat
            { lexer := { input := '(' :: (s ++ [')']), currentPos := 0 + 1 },
              currentToken := { type := .OPEN_PAREN, value := ['('] } } .OPEN_PAREN))
        (.returned t q1) :=
      ⟨parseFuel s, by rw [eat_eq_stateAt rfl]; exact hq, by simp⟩
    have hf := runs_factor_paren rfl hinner
    exact runs_expr
      (runs_term hf (runs_termLoop_stop _ (by rw [hend]; simp)))
      (runs_exprLoop_stop _ (by rw [hend]; simp))
  | threw e => rw [hq] at hsim; exact absurd hsim (by simp [RSimBy])
  | out_of_fuel => rw [hq] at hsim; exact absurd hsim (by simp [RSimBy])

theorem parens_leave_no_trace_witness :
    parse ['1', '+', '2'] =
      .returned (.BinOpNode .PLUS (.NumNode 1) (.NumNode 2)) (finalState ['1', '+', '2']) ∧
    (∃ st1, parse ('(' :: (['1', '+', '2'] ++ [')'])) =
        .returned (.BinOpNode .PLUS (.NumNode 1) (.NumNode 2)) st1 ∧
      st1.currentToken.type = .END_OF_FILE) :=
  ⟨by decide,
   parens_leave_no_trace ['1', '+', '2'] (.BinOpNode .PLUS (.NumNode 1) (.NumNode 2))
    (finalState ['1', '+', '2']) (by decide) (by decide)⟩

/-! ### Claim C20: the tokenizer demo never emits a keyword -/

namespace Lexical

theorem noKeyword_step (st : TokenizeState) (c : Char) (h : NoKeyword st) :
    NoKeyword (tokenizeStep st c) := by
  obtain ⟨h1, h2, h3⟩ := h
  unfold tokenizeStep
  by_cases hs : isspace c = true
  · simp only [hs, if_true]
    by_cases hb : st.buffer ≠ []
    · rw [if_pos hb]
      refine ⟨h1, h2, ?_⟩
      intro tok htok
      rcases List.mem_append.mp htok with ht | ht
      · exact h3 tok ht
      · simp only [List.mem_singleton] at ht
        rw [ht]; exact h1
    · rw [if_neg hb]
      exact ⟨h1, h2, h3⟩
  · simp only [hs]
    have hty : (if isdigit c = true then TokenType.INTEGER
        else if isalpha c = true then TokenType.IDENTIFIER
        else if isDelimiter c = true then TokenType.DELIMITER
        else if isOperator c = true then TokenType.OPERATOR
        else st.type) ≠ .KEYWORD ∧
        (if isdigit c = true then TokenType.INTEGER
        else if isalpha c = true then TokenType.IDENTIFIER
        else if isDelimiter c = true then TokenType.DELIMITER
        else if isOperator c = true then TokenType.OPERATOR
        else st.type) ≠ .END := by
      split_ifs <;> first | exact ⟨h1, h2⟩ | exact ⟨by decide, by decide⟩
    simp only [Bool.false_eq_true, if_false, hty.1, false_and]
    exact ⟨hty.1, hty.2, h3⟩

theorem noKeyword_foldl (input : List Char) : ∀ st, NoKeyword st →
    NoKeyword (input.foldl tokenizeStep st) := by
  induction input with
  | nil => intro st h; exact h
  | cons c t ih => intro st h; exact ih _ (noKeyword_step st c h)

/-- C20. No token returned by `tokenize` has type `KEYWORD`, whatever the input: the running
type after the loop is one of `UNKNOWN`, `IDENTIFIER`, `INTEGER`, `OPERATOR`, `DELIMITER`, so
the keyword branch is never taken; the words `if`, `else`, `while` and `return` come out as
one token of type `IDENTIFIER` each. -/
theorem tokenize_no_keyword (input : List Char) :
    (∀ tok ∈ tokenize input, tok.type ≠ .KEYWORD) ∧
    (tokenizeLoop input).type ≠ .KEYWORD ∧ (tokenizeLoop input).type ≠ .END ∧
    (∀ w ∈ keywords, isKeyword w = true ∧ tokenize w = [{ type := .IDENTIFIER, value := w }]) ∧
    tokenize ['i', 'f', ' ', 'x', ' ', 'r', 'e', 't', 'u', 'r', 'n'] =
      [{ type := .IDENTIFIER, value := ['i', 'f'] }, { type := .IDENTIFIER, value := ['x'] },
       { type := .IDENTIFIER, value := ['r', 'e', 't', 'u', 'r', 'n'] }] := by
  have hinv : NoKeyword (tokenizeLoop input) :=
    noKeyword_foldl input _ ⟨by decide, by decide, by simp⟩
  refine ⟨?_, hinv.1, hinv.2.1, by decide, by decide⟩
  intro tok htok
  unfold tokenize at htok
  simp only at htok
  by_cases hb : (tokenizeLoop input).buffer ≠ []
  · rw [if_pos hb] at htok
    rcases List.mem_append.mp htok with ht | ht
    · exact hinv.2.2 tok ht
    · simp only [List.mem_singleton] at ht
      rw [ht]; exact hinv.1
  · rw [if_neg hb] at htok
    exact hinv.2.2 tok htok

end Lexical

end Compiler
